import Mathlib

/-
Shallow embedding of the `bitset-core` crate (CasualX/bitset-core).

Source files embedded:
  src/uint.rs   - the word backend: `impl BitSet for u8/u16/u32/u64/u128`,
                  parametrized here by the bit width `w`; machine words are
                  `Nat` values kept below `2 ^ w`.
  src/slice.rs  - the flat-array backend: `impl BitSet for [uW]`, embedded as
                  `List Nat`.  The `assert!` length checks of the binary
                  operations are embedded by returning `Option` (`none` is the
                  panic).  Indexed operations carry the caller contract
                  `bit < bit_len` from the crate docs; inside that contract the
                  `getD _ 0` / `List.set` translation coincides with the
                  panicking slice indexing of the source.
  src/simd.rs   - the vector-shaped backend: `impl BitSet for [[uW; L]]`,
                  embedded as `List (List Nat)` with every block of length `L`.
  src/stdty.rs  - the sparse backend: `impl BitSet for BTreeMap<usize, T>`,
                  embedded as a key-sorted association list `List (Nat × Nat)`.
                  `unimplemented!()` panics are embedded as `none`.
  src/fmt.rs    - the hexadecimal formatter `hexstring`.

Rust integer operations on `uW` become `Nat` operations; every operation here
either keeps its result below `2 ^ w` by construction (and, xor with masked
operands) or is used only under the caller contract `bit < w`, where the shift
`1 << bit` cannot overflow, so no explicit `% 2 ^ w` truncation is required.
-/

namespace BitsetCore

/-- Population count of a natural number, the embedding of Rust's
`count_ones` on unsigned integers. -/
def count_ones (n : Nat) : Nat :=
  if n = 0 then 0 else n % 2 + count_ones (n / 2)
decreasing_by exact Nat.div_lt_self (Nat.pos_of_ne_zero (by assumption)) (by omega)

/-- Bitwise complement of a `w`-bit word, the embedding of Rust's `!x`
on an unsigned integer of width `w`. -/
def notW (w x : Nat) : Nat := x ^^^ (2 ^ w - 1)

namespace Uint

/-- Embeds `<$ty as BitSet>::bit_len` from src/uint.rs: the width in bits. -/
def bit_len (w : Nat) : Nat := w

/-- Embeds `bit_init` from src/uint.rs:
`*self = wrapping_add(!(value as $ty), 1)`, i.e. all-ones when `value`
is true and zero otherwise. -/
def bit_init (w : Nat) (value : Bool) : Nat :=
  if value then 2 ^ w - 1 else 0

/-- Embeds `bit_test_usize` from src/uint.rs: `*self & (1 << bit) != 0`. -/
def bit_test_usize (v bit : Nat) : Bool :=
  decide (v &&& (1 <<< bit) ≠ 0)

/-- Embeds `bit_set_usize` from src/uint.rs: `*self |= 1 << bit`. -/
def bit_set_usize (v bit : Nat) : Nat := v ||| (1 <<< bit)

/-- Embeds `bit_reset_usize` from src/uint.rs: `*self &= !(1 << bit)`. -/
def bit_reset_usize (w v bit : Nat) : Nat := v &&& notW w (1 <<< bit)

/-- Embeds `bit_flip_usize` from src/uint.rs: `*self ^= 1 << bit`. -/
def bit_flip_usize (v bit : Nat) : Nat := v ^^^ (1 <<< bit)

/-- Embeds `bit_cond_usize` from src/uint.rs:
`*self = (*self & !mask) | (wrapping_add(!(value as $ty), 1) & mask)`
with `mask = 1 << bit`. -/
def bit_cond_usize (w v bit : Nat) (value : Bool) : Nat :=
  (v &&& notW w (1 <<< bit)) ||| (bit_init w value &&& (1 <<< bit))

/-- Embeds `bit_count` from src/uint.rs: `self.count_ones()`. -/
def bit_count (v : Nat) : Nat := count_ones v

end Uint

namespace Slice

/-- Embeds `<[$ty] as BitSet>::bit_len` from src/slice.rs:
`self.len() * $bits_per_word`. -/
def bit_len (w : Nat) (bs : List Nat) : Nat := bs.length * w

/-- Embeds `bit_init` from src/slice.rs: every element is filled with the
all-ones or all-zero word. -/
def bit_init (w : Nat) (bs : List Nat) (value : Bool) : List Nat :=
  bs.map fun _ => Uint.bit_init w value

/-- Embeds `bit_test` from src/slice.rs:
`self[bit / w] & (1 << bit % w) != 0`. -/
def bit_test (w : Nat) (bs : List Nat) (bit : Nat) : Bool :=
  decide ((bs.getD (bit / w) 0) &&& (1 <<< (bit % w)) ≠ 0)

/-- Embeds `bit_set` from src/slice.rs: `self[bit / w] |= 1 << bit % w`. -/
def bit_set (w : Nat) (bs : List Nat) (bit : Nat) : List Nat :=
  bs.set (bit / w) ((bs.getD (bit / w) 0) ||| (1 <<< (bit % w)))

/-- Embeds `bit_reset` from src/slice.rs:
`self[bit / w] &= !(1 << bit % w)`. -/
def bit_reset (w : Nat) (bs : List Nat) (bit : Nat) : List Nat :=
  bs.set (bit / w) ((bs.getD (bit / w) 0) &&& notW w (1 <<< (bit % w)))

/-- Embeds `bit_flip` from src/slice.rs: `self[bit / w] ^= 1 << bit % w`. -/
def bit_flip (w : Nat) (bs : List Nat) (bit : Nat) : List Nat :=
  bs.set (bit / w) ((bs.getD (bit / w) 0) ^^^ (1 <<< (bit % w)))

/-- Embeds `bit_cond` from src/slice.rs:
`self[index] = (self[index] & !mask) | (init_word & mask)`. -/
def bit_cond (w : Nat) (bs : List Nat) (bit : Nat) (value : Bool) : List Nat :=
  bs.set (bit / w)
    (((bs.getD (bit / w) 0) &&& notW w (1 <<< (bit % w))) |||
      (Uint.bit_init w value &&& (1 <<< (bit % w))))

/-- Embeds `bit_all` from src/slice.rs: every element equals `!0`. -/
def bit_all (w : Nat) (bs : List Nat) : Bool :=
  bs.all fun x => x == 2 ^ w - 1

/-- Embeds `bit_any` from src/slice.rs: some element is nonzero. -/
def bit_any (bs : List Nat) : Bool :=
  bs.any fun x => x != 0

/-- Embeds `bit_eq` from src/slice.rs: `assert!(self.len() == rhs.len())`
(the `none` case) followed by the element-wise equality scan. -/
def bit_eq (a b : List Nat) : Option Bool :=
  if a.length = b.length then some ((a.zip b).all fun p => p.1 == p.2)
  else none

/-- Embeds `bit_disjoint` from src/slice.rs: length assertion, then
`self[i] & rhs[i] != 0` causes a `false` result. -/
def bit_disjoint (a b : List Nat) : Option Bool :=
  if a.length = b.length then some ((a.zip b).all fun p => p.1 &&& p.2 == 0)
  else none

/-- Embeds `bit_subset` from src/slice.rs: length assertion, then
`self[i] | rhs[i] != rhs[i]` causes a `false` result. -/
def bit_subset (a b : List Nat) : Option Bool :=
  if a.length = b.length then some ((a.zip b).all fun p => p.1 ||| p.2 == p.2)
  else none

/-- Embeds `bit_or` from src/slice.rs: length assertion, then
`self[i] |= rhs[i]` for every element. -/
def bit_or (a b : List Nat) : Option (List Nat) :=
  if a.length = b.length then some (List.zipWith (fun x y => x ||| y) a b)
  else none

/-- Embeds `bit_and` from src/slice.rs: length assertion, then
`self[i] &= rhs[i]` for every element. -/
def bit_and (a b : List Nat) : Option (List Nat) :=
  if a.length = b.length then some (List.zipWith (fun x y => x &&& y) a b)
  else none

/-- Embeds `bit_andnot` from src/slice.rs: length assertion, then
`self[i] &= !rhs[i]` for every element. -/
def bit_andnot (w : Nat) (a b : List Nat) : Option (List Nat) :=
  if a.length = b.length then some (List.zipWith (fun x y => x &&& notW w y) a b)
  else none

/-- Embeds `bit_xor` from src/slice.rs: length assertion, then
`self[i] ^= rhs[i]` for every element. -/
def bit_xor (a b : List Nat) : Option (List Nat) :=
  if a.length = b.length then some (List.zipWith (fun x y => x ^^^ y) a b)
  else none

/-- Embeds `bit_not` from src/slice.rs: `self[i] = !self[i]` for every
element; there is no length assertion. -/
def bit_not (w : Nat) (bs : List Nat) : List Nat :=
  bs.map fun x => notW w x

/-- Element-wise body of the slice `bit_mask` loop:
`self[i] = self[i] & !mask[i] | rhs[i] & mask[i]`. -/
def mask_words (w : Nat) : List Nat → List Nat → List Nat → List Nat
  | x :: a, y :: b, z :: c => (x &&& notW w z ||| y &&& z) :: mask_words w a b c
  | _, _, _ => []

/-- Embeds `bit_mask` from src/slice.rs: both `assert!`s (equal length of all
three slices, else `none`), then the element-wise ternary select. -/
def bit_mask (w : Nat) (a b m : List Nat) : Option (List Nat) :=
  if a.length = b.length ∧ a.length = m.length then some (mask_words w a b m)
  else none

/-- Embeds `bit_count` from src/slice.rs: the sum of the per-element
population counts. -/
def bit_count (bs : List Nat) : Nat :=
  (bs.map count_ones).sum

end Slice

namespace Simd

/-- Bits per vector block in src/simd.rs: the `$bits_per_word` literal of each
`impl_bit_set_simd!` instantiation always equals `lane width * lane count`. -/
def bits_per_word (w L : Nat) : Nat := L * w

/-- Bits per lane in src/simd.rs: `$bits_per_word / $elem_len`. -/
def bits_per_lane (w L : Nat) : Nat := bits_per_word w L / L

/-- Embeds `<[[uW; L]] as BitSet>::bit_len` from src/simd.rs:
`self.len() * $bits_per_word`. -/
def bit_len (w L : Nat) (bss : List (List Nat)) : Nat :=
  bss.length * bits_per_word w L

/-- Embeds `bit_init` from src/simd.rs: every block is replaced by
`[init_word; L]`. -/
def bit_init (w L : Nat) (bss : List (List Nat)) (value : Bool) :
    List (List Nat) :=
  bss.map fun _ => List.replicate L (Uint.bit_init w value)

/-- Embeds the three-level index resolution of src/simd.rs:
`index = bit / bits_per_word`. -/
def blk_index (w L bit : Nat) : Nat := bit / bits_per_word w L

/-- Embeds `lane = (bit / (bits_per_word / elem_len)) % elem_len`. -/
def lane_index (w L bit : Nat) : Nat := (bit / bits_per_lane w L) % L

/-- Embeds `mask = 1 << bit % (bits_per_word / elem_len)`. -/
def lane_mask (w L bit : Nat) : Nat := 1 <<< (bit % bits_per_lane w L)

/-- Embeds `bit_test` from src/simd.rs: `self[index][lane] & mask != 0`. -/
def bit_test (w L : Nat) (bss : List (List Nat)) (bit : Nat) : Bool :=
  decide (((bss.getD (blk_index w L bit) []).getD (lane_index w L bit) 0 &&&
    lane_mask w L bit) ≠ 0)

/-- Embeds `bit_set` from src/simd.rs: `self[index][lane] |= mask`. -/
def bit_set (w L : Nat) (bss : List (List Nat)) (bit : Nat) :
    List (List Nat) :=
  bss.set (blk_index w L bit)
    ((bss.getD (blk_index w L bit) []).set (lane_index w L bit)
      ((bss.getD (blk_index w L bit) []).getD (lane_index w L bit) 0 |||
        lane_mask w L bit))

/-- Embeds `bit_reset` from src/simd.rs: `self[index][lane] &= !mask`. -/
def bit_reset (w L : Nat) (bss : List (List Nat)) (bit : Nat) :
    List (List Nat) :=
  bss.set (blk_index w L bit)
    ((bss.getD (blk_index w L bit) []).set (lane_index w L bit)
      ((bss.getD (blk_index w L bit) []).getD (lane_index w L bit) 0 &&&
        notW w (lane_mask w L bit)))

/-- Embeds `bit_flip` from src/simd.rs: `self[index][lane] ^= mask`. -/
def bit_flip (w L : Nat) (bss : List (List Nat)) (bit : Nat) :
    List (List Nat) :=
  bss.set (blk_index w L bit)
    ((bss.getD (blk_index w L bit) []).set (lane_index w L bit)
      ((bss.getD (blk_index w L bit) []).getD (lane_index w L bit) 0 ^^^
        lane_mask w L bit))

/-- Embeds `bit_cond` from src/simd.rs:
`self[index][lane] = (self[index][lane] & !mask) | (init_word & mask)`. -/
def bit_cond (w L : Nat) (bss : List (List Nat)) (bit : Nat) (value : Bool) :
    List (List Nat) :=
  bss.set (blk_index w L bit)
    ((bss.getD (blk_index w L bit) []).set (lane_index w L bit)
      (((bss.getD (blk_index w L bit) []).getD (lane_index w L bit) 0 &&&
          notW w (lane_mask w L bit)) |||
        (Uint.bit_init w value &&& lane_mask w L bit)))

/-- Embeds the macro-expanded per-lane array `[$(f self[i][idx] rhs[i][idx]),*]`
of src/simd.rs: lanes `0, 1, ..., L-1` combined pointwise. -/
def lanes_map2 (L : Nat) (f : Nat → Nat → Nat) (x y : List Nat) : List Nat :=
  (List.range L).map fun j => f (x.getD j 0) (y.getD j 0)

/-- Embeds `bit_all` from src/simd.rs: every block equals `[!0; L]`. -/
def bit_all (w L : Nat) (bss : List (List Nat)) : Bool :=
  bss.all fun blk => blk == List.replicate L (2 ^ w - 1)

/-- Embeds `bit_any` from src/simd.rs: some block differs from `[0; L]`. -/
def bit_any (L : Nat) (bss : List (List Nat)) : Bool :=
  bss.any fun blk => blk != List.replicate L 0

/-- Embeds `bit_eq` from src/simd.rs: `assert_eq!` on the block counts
(the `none` case), then the block-wise equality scan. -/
def bit_eq (a b : List (List Nat)) : Option Bool :=
  if a.length = b.length then some ((a.zip b).all fun p => p.1 == p.2)
  else none

/-- Embeds `bit_disjoint` from src/simd.rs: the per-block lane-wise AND is
compared against `[0; L]`. -/
def bit_disjoint (L : Nat) (a b : List (List Nat)) : Option Bool :=
  if a.length = b.length then
    some ((a.zip b).all fun p =>
      lanes_map2 L (fun x y => x &&& y) p.1 p.2 == List.replicate L 0)
  else none

/-- Embeds `bit_subset` from src/simd.rs: the per-block lane-wise OR is
compared against `rhs[i]`. -/
def bit_subset (L : Nat) (a b : List (List Nat)) : Option Bool :=
  if a.length = b.length then
    some ((a.zip b).all fun p =>
      lanes_map2 L (fun x y => x ||| y) p.1 p.2 == p.2)
  else none

/-- Embeds `bit_or` from src/simd.rs: block count assertion, then
`self[i][j] |= rhs[i][j]` for every block and lane. -/
def bit_or (L : Nat) (a b : List (List Nat)) : Option (List (List Nat)) :=
  if a.length = b.length then
    some (List.zipWith (lanes_map2 L fun x y => x ||| y) a b)
  else none

/-- Embeds `bit_and` from src/simd.rs. -/
def bit_and (L : Nat) (a b : List (List Nat)) : Option (List (List Nat)) :=
  if a.length = b.length then
    some (List.zipWith (lanes_map2 L fun x y => x &&& y) a b)
  else none

/-- Embeds `bit_andnot` from src/simd.rs: `self[i][j] &= !rhs[i][j]`. -/
def bit_andnot (w L : Nat) (a b : List (List Nat)) :
    Option (List (List Nat)) :=
  if a.length = b.length then
    some (List.zipWith (lanes_map2 L fun x y => x &&& notW w y) a b)
  else none

/-- Embeds `bit_xor` from src/simd.rs. -/
def bit_xor (L : Nat) (a b : List (List Nat)) : Option (List (List Nat)) :=
  if a.length = b.length then
    some (List.zipWith (lanes_map2 L fun x y => x ^^^ y) a b)
  else none

/-- Embeds `bit_not` from src/simd.rs: `self[i][j] = !self[i][j]` for every
block and lane; no assertion. -/
def bit_not (w L : Nat) (bss : List (List Nat)) : List (List Nat) :=
  bss.map fun blk => (List.range L).map fun j => notW w (blk.getD j 0)

/-- Block-wise body of the simd `bit_mask` loop: per lane
`self[i][j] = self[i][j] & !mask[i][j] | rhs[i][j] & mask[i][j]`. -/
def mask_blocks (w L : Nat) :
    List (List Nat) → List (List Nat) → List (List Nat) → List (List Nat)
  | x :: a, y :: b, z :: c =>
    ((List.range L).map fun j =>
      x.getD j 0 &&& notW w (z.getD j 0) ||| y.getD j 0 &&& z.getD j 0) ::
      mask_blocks w L a b c
  | _, _, _ => []

/-- Embeds `bit_mask` from src/simd.rs: both `assert_eq!`s, then the
lane-wise ternary select per block. -/
def bit_mask (w L : Nat) (a b m : List (List Nat)) :
    Option (List (List Nat)) :=
  if a.length = b.length ∧ a.length = m.length then
    some (mask_blocks w L a b m)
  else none

/-- Embeds `bit_count` from src/simd.rs: per-lane accumulators
`result[j] += self[i][j].count_ones()` summed over all blocks, then the
final fold `0 + result[0] + ... + result[L-1]`. -/
def bit_count (L : Nat) (bss : List (List Nat)) : Nat :=
  ((List.range L).map fun j =>
    (bss.map fun blk => count_ones (blk.getD j 0)).sum).sum

end Simd

namespace Sparse

/-- Lookup in the association-list embedding of `BTreeMap<usize, T>`:
`self.get(&key)`. -/
def find? : List (Nat × Nat) → Nat → Option Nat
  | [], _ => none
  | kv :: m, key => if key = kv.1 then some kv.2 else find? m key

/-- Embeds `other.get(key).unwrap_or(&def)` where `T::default()` is the
all-zero word. -/
def getD (m : List (Nat × Nat)) (key : Nat) : Nat :=
  (find? m key).getD 0

/-- Embeds `self.entry(key).or_default()` followed by an in-place update of
the stored word: inserts `f 0` at a fresh key (keeping the key order of the
`BTreeMap`) or replaces the present word `v` by `f v`. -/
def update_entry : List (Nat × Nat) → Nat → (Nat → Nat) → List (Nat × Nat)
  | [], key, f => [(key, f 0)]
  | kv :: m, key, f =>
    if key < kv.1 then (key, f 0) :: kv :: m
    else if key = kv.1 then (key, f kv.2) :: m
    else kv :: update_entry m key f

/-- Embeds `if let Some(storage) = self.get_mut(&key) { ... }`: updates the
stored word only when the key is present. -/
def modify_entry (m : List (Nat × Nat)) (key : Nat) (f : Nat → Nat) :
    List (Nat × Nat) :=
  m.map fun kv => if kv.1 = key then (kv.1, f kv.2) else kv

/-- Embeds `bit_len` from src/stdty.rs: `usize::MAX` (64-bit target). -/
def bit_len (_m : List (Nat × Nat)) : Nat := 2 ^ 64 - 1

/-- Embeds `bit_init` from src/stdty.rs: `unimplemented!()` for `true`
(embedded as `none`), `self.clear()` for `false`. -/
def bit_init (_m : List (Nat × Nat)) (value : Bool) :
    Option (List (Nat × Nat)) :=
  if value then none else some []

/-- Embeds `bit_not` from src/stdty.rs: always `unimplemented!()`. -/
def bit_not (_m : List (Nat × Nat)) : Option (List (Nat × Nat)) := none

/-- Embeds `bit_test` from src/stdty.rs.  Note that the source computes
`index = bit / mem::size_of::<T>()` and `bit % mem::size_of::<T>()` where
`mem::size_of::<T>()` is the size of the word type in BYTES; the parameter
`s` is that byte count, and the stored word is handled through the slice
backend on the one-element slice `slice::from_ref(storage)` whose word
width is `8 * s` bits. -/
def bit_test (s : Nat) (m : List (Nat × Nat)) (bit : Nat) : Bool :=
  match find? m (bit / s) with
  | some storage => Slice.bit_test (8 * s) [storage] (bit % s)
  | none => false

/-- Embeds `bit_set` from src/stdty.rs: `self.entry(bit / size_of).or_default()`
then slice `bit_set` on the one-element slice at `bit % size_of`. -/
def bit_set (s : Nat) (m : List (Nat × Nat)) (bit : Nat) : List (Nat × Nat) :=
  update_entry m (bit / s) fun v =>
    (Slice.bit_set (8 * s) [v] (bit % s)).getD 0 0

/-- Embeds `bit_reset` from src/stdty.rs: only a present key is updated. -/
def bit_reset (s : Nat) (m : List (Nat × Nat)) (bit : Nat) :
    List (Nat × Nat) :=
  modify_entry m (bit / s) fun v =>
    (Slice.bit_reset (8 * s) [v] (bit % s)).getD 0 0

/-- Embeds `bit_flip` from src/stdty.rs: lazily inserting like `bit_set`. -/
def bit_flip (s : Nat) (m : List (Nat × Nat)) (bit : Nat) : List (Nat × Nat) :=
  update_entry m (bit / s) fun v =>
    (Slice.bit_flip (8 * s) [v] (bit % s)).getD 0 0

/-- Embeds `bit_cond` from src/stdty.rs:
`if value { self.bit_set(bit) } else { self.bit_reset(bit) }`. -/
def bit_cond (s : Nat) (m : List (Nat × Nat)) (bit : Nat) (value : Bool) :
    List (Nat × Nat) :=
  if value then bit_set s m bit else bit_reset s m bit

/-- Embeds `bit_or` from src/stdty.rs: for every key of `other`, OR the word
of `other` into the lazily inserted entry of `self`. -/
def bit_or (m other : List (Nat × Nat)) : List (Nat × Nat) :=
  other.foldl (fun acc kv =>
    update_entry acc kv.1 fun v =>
      ((Slice.bit_or [v] [kv.2]).getD []).getD 0 0) m

/-- Embeds `bit_and` from src/stdty.rs: only keys already present in `self`
are updated. -/
def bit_and (m other : List (Nat × Nat)) : List (Nat × Nat) :=
  other.foldl (fun acc kv =>
    modify_entry acc kv.1 fun v =>
      ((Slice.bit_and [v] [kv.2]).getD []).getD 0 0) m

/-- Embeds `bit_andnot` from src/stdty.rs: only keys already present in
`self` are updated.  The slice call carries the word width `8 * s`. -/
def bit_andnot (s : Nat) (m other : List (Nat × Nat)) : List (Nat × Nat) :=
  other.foldl (fun acc kv =>
    modify_entry acc kv.1 fun v =>
      ((Slice.bit_andnot (8 * s) [v] [kv.2]).getD []).getD 0 0) m

/-- Embeds `bit_xor` from src/stdty.rs.  Note that the body of the source's
`bit_xor` calls `bit_or` on the stored words, so this definition ORs exactly
like `bit_or` does. -/
def bit_xor (m other : List (Nat × Nat)) : List (Nat × Nat) :=
  other.foldl (fun acc kv =>
    update_entry acc kv.1 fun v =>
      ((Slice.bit_or [v] [kv.2]).getD []).getD 0 0) m

/-- Embeds `bit_mask` from src/stdty.rs: for every key of the mask mapping,
the entry of `self` is lazily inserted and combined with the (default-zero)
word of `other` under the mask word. -/
def bit_mask (s : Nat) (m other mask : List (Nat × Nat)) : List (Nat × Nat) :=
  mask.foldl (fun acc kv =>
    update_entry acc kv.1 fun v =>
      ((Slice.bit_mask (8 * s) [v] [getD other kv.1] [kv.2]).getD []).getD 0 0)
    m

/-- Embeds `bit_count` from src/stdty.rs: the sum of the population counts of
all stored words. -/
def bit_count (m : List (Nat × Nat)) : Nat :=
  (m.map fun kv => Slice.bit_count [kv.2]).sum

/-- Keys of the association list are strictly increasing, as they are in the
`BTreeMap` the list embeds. -/
def sorted_keys : List (Nat × Nat) → Bool
  | [] => true
  | kv :: m => (m.all fun kv2 => kv.1 < kv2.1) && sorted_keys m

/-- Invariant of one stored entry of a reachable sparse map: every set bit of
the stored word lies below the byte count `s` (the only in-word positions the
index arithmetic of src/stdty.rs can address) and its global bit position
stays below `bit_len`. -/
def inv_entry (s : Nat) (kv : Nat × Nat) : Prop :=
  ∀ j, kv.2.testBit j = true → j < s ∧ kv.1 * s + j < 2 ^ 64 - 1

/-- Invariant of a reachable sparse map: keys strictly sorted (as in the
`BTreeMap`) and every entry satisfying `inv_entry`. -/
def sparse_inv (s : Nat) (m : List (Nat × Nat)) : Prop :=
  sorted_keys m = true ∧ ∀ kv ∈ m, inv_entry s kv

/-- States of the sparse backend reachable from `bit_init(false)` through the
mutating operations of the `BitSet` trait, with every bit index below
`bit_len` (the caller contract of the crate). -/
inductive Reachable (s : Nat) : List (Nat × Nat) → Prop
  | empty : Reachable s []
  | set {m bit} : Reachable s m → bit < 2 ^ 64 - 1 →
      Reachable s (bit_set s m bit)
  | reset {m bit} : Reachable s m → bit < 2 ^ 64 - 1 →
      Reachable s (bit_reset s m bit)
  | flip {m bit} : Reachable s m → bit < 2 ^ 64 - 1 →
      Reachable s (bit_flip s m bit)
  | cond {m bit value} : Reachable s m → bit < 2 ^ 64 - 1 →
      Reachable s (bit_cond s m bit value)
  | union {m other} : Reachable s m → Reachable s other →
      Reachable s (bit_or m other)
  | inter {m other} : Reachable s m → Reachable s other →
      Reachable s (bit_and m other)
  | diff {m other} : Reachable s m → Reachable s other →
      Reachable s (bit_andnot s m other)
  | symmdiff {m other} : Reachable s m → Reachable s other →
      Reachable s (bit_xor m other)
  | mask {m other mk} : Reachable s m → Reachable s other → Reachable s mk →
      Reachable s (bit_mask s m other mk)

end Sparse

namespace Fmt

/-- The `UPPERHEX_ALPHABET` of src/fmt.rs: the sixteen upper-case hex
digits in order. -/
def UPPERHEX_ALPHABET : List Char := "0123456789ABCDEF".toList

/-- The `LOWERHEX_ALPHABET` of src/fmt.rs: the sixteen lower-case hex
digits in order. -/
def LOWERHEX_ALPHABET : List Char := "0123456789abcdef".toList

/-- Rust's `bool as u8`. -/
def b2n (b : Bool) : Nat := if b then 1 else 0

/-- Embeds the byte computed by one iteration of the `hexstring` loop in
src/fmt.rs: `(bit_test(i+0) as u8) << 7 | ... | (bit_test(i+7) as u8) << 0`
where `tf` is the generic `bit_test` of the formatted container. -/
def hex_byte (tf : Nat → Bool) (i : Nat) : Nat :=
  b2n (tf (i + 0)) <<< 7 ||| b2n (tf (i + 1)) <<< 6 |||
  b2n (tf (i + 2)) <<< 5 ||| b2n (tf (i + 3)) <<< 4 |||
  b2n (tf (i + 4)) <<< 3 ||| b2n (tf (i + 5)) <<< 2 |||
  b2n (tf (i + 6)) <<< 1 ||| b2n (tf (i + 7)) <<< 0

/-- Body of the `hexstring` while loop of src/fmt.rs, unrolled over its trip
count: each iteration emits `alphabet[byte >> 4]` then `alphabet[byte & 0xf]`
and advances `i` by 8.  The loop `while i < len { ...; i += 8 }` starting at
`i = 0` runs exactly `(len + 7) / 8` iterations, which `hexstring` passes as
the structural recursion depth. -/
def hex_chunks (alphabet : List Char) (tf : Nat → Bool) :
    Nat → Nat → List Char
  | 0, _ => []
  | n + 1, i =>
    alphabet.getD (hex_byte tf i / 16) '0' ::
      alphabet.getD (hex_byte tf i % 16) '0' ::
      hex_chunks alphabet tf n (i + 8)

/-- Embeds `hexstring` from src/fmt.rs over the generic `bit_len`/`bit_test`
contract of the formatted container. -/
def hexstring (alphabet : List Char) (len : Nat) (tf : Nat → Bool) :
    List Char :=
  hex_chunks alphabet tf ((len + 7) / 8) 0

/-- Modelled from the claim's words for comparison with `hexstring`: the k-th
8-bit group rendered as the byte in which `bit_test(8k + j)` contributes
weight `2 ^ j`, printed as two hex digits, high nibble first, low-index group
first. -/
def spec_byte (tf : Nat → Bool) (k : Nat) : Nat :=
  ((List.range 8).map fun j => if tf (8 * k + j) then 2 ^ j else 0).sum

/-- Modelled from the claim's words: the hexadecimal rendering the claim
describes, with the byte value of each group taken from `spec_byte`. -/
def hexstring_spec (alphabet : List Char) (len : Nat) (tf : Nat → Bool) :
    List Char :=
  (List.range (len / 8)).flatMap fun k =>
    [alphabet.getD (spec_byte tf k / 16) '0',
     alphabet.getD (spec_byte tf k % 16) '0']

/-- The byte value actually rendered by `hexstring` for the k-th group, in
closed form: `bit_test(8k + j)` contributes weight `2 ^ (7 - j)`. -/
def rev_byte (tf : Nat → Bool) (k : Nat) : Nat :=
  ((List.range 8).map fun j => if tf (8 * k + j) then 2 ^ (7 - j) else 0).sum

end Fmt

/-- Every block of a vector-shaped container holds exactly `L` lanes, as the
type `[[uW; L]]` guarantees in the source. -/
def Blocks (L : Nat) (bss : List (List Nat)) : Prop :=
  ∀ blk ∈ bss, blk.length = L

/-! ### Word-level lemmas -/

theorem shiftLeft_one (bit : Nat) : 1 <<< bit = 2 ^ bit := by
  rw [Nat.shiftLeft_eq, Nat.one_mul]

theorem uint_test_eq_testBit (v bit : Nat) :
    Uint.bit_test_usize v bit = v.testBit bit := by
  rw [Uint.bit_test_usize, shiftLeft_one]
  rcases h : v.testBit bit with _ | _ <;>
    simp [Nat.and_two_pow, h, Nat.pos_iff_ne_zero.mp (Nat.two_pow_pos bit)]

theorem testBit_notW {w x j : Nat} (hj : j < w) :
    (notW w x).testBit j = !x.testBit j := by
  rw [notW, Nat.testBit_xor, Nat.testBit_two_pow_sub_one]
  rcases x.testBit j with _ | _ <;> simp [hj]

theorem testBit_notW_ge {w x j : Nat} (hj : w ≤ j) :
    (notW w x).testBit j = x.testBit j := by
  rw [notW, Nat.testBit_xor, Nat.testBit_two_pow_sub_one]
  rcases x.testBit j with _ | _ <;> simp [Nat.not_lt.mpr hj]

theorem uint_set_testBit (v i j : Nat) :
    (Uint.bit_set_usize v i).testBit j =
      (v.testBit j || decide (i = j)) := by
  rw [Uint.bit_set_usize, shiftLeft_one, Nat.testBit_lor, Nat.testBit_two_pow]

theorem uint_reset_testBit {w : Nat} (v i j : Nat) (hj : j < w) :
    (Uint.bit_reset_usize w v i).testBit j =
      (v.testBit j && !decide (i = j)) := by
  rw [Uint.bit_reset_usize, shiftLeft_one, Nat.testBit_land,
    testBit_notW hj, Nat.testBit_two_pow]

theorem uint_flip_testBit (v i j : Nat) :
    (Uint.bit_flip_usize v i).testBit j =
      (v.testBit j != decide (i = j)) := by
  rw [Uint.bit_flip_usize, shiftLeft_one, Nat.testBit_xor, Nat.testBit_two_pow]

theorem uint_init_testBit (w : Nat) (value : Bool) (j : Nat) (hj : j < w) :
    (Uint.bit_init w value).testBit j = value := by
  rcases value with _ | _ <;>
    simp [Uint.bit_init, Nat.testBit_two_pow_sub_one, hj]

theorem uint_cond_testBit {w : Nat} (v i j : Nat) (value : Bool) (hj : j < w) :
    (Uint.bit_cond_usize w v i value).testBit j =
      (if i = j then value else v.testBit j) := by
  rw [Uint.bit_cond_usize, shiftLeft_one, Nat.testBit_lor, Nat.testBit_land,
    Nat.testBit_land, testBit_notW hj, Nat.testBit_two_pow,
    uint_init_testBit w value j hj]
  rcases Nat.decEq i j with h | h <;> rcases value with _ | _ <;> simp [h]

theorem uint_flip_flip (v i : Nat) :
    Uint.bit_flip_usize (Uint.bit_flip_usize v i) i = v := by
  rw [Uint.bit_flip_usize, Uint.bit_flip_usize, Nat.xor_assoc, Nat.xor_self,
    Nat.xor_zero]

/-! ### Population-count lemmas -/

theorem count_ones_zero : count_ones 0 = 0 := by rw [count_ones]; simp

theorem count_ones_rec (n : Nat) : count_ones n = n % 2 + count_ones (n / 2) := by
  by_cases h : n = 0
  · subst h; simp [count_ones_zero]
  · conv_lhs => rw [count_ones]
    simp [h]

theorem countP_range_succ (n : Nat) (p : Nat → Bool) :
    (List.range (n + 1)).countP p =
      (if p 0 then 1 else 0) + (List.range n).countP fun j => p (j + 1) := by
  rw [List.range_succ_eq_map, List.countP_cons, List.countP_map]
  rcases h : p 0 with _ | _ <;>
    simp [h, Nat.add_comm, Function.comp_def, Nat.succ_eq_add_one]

theorem count_ones_eq_countP :
    ∀ (w v : Nat), v < 2 ^ w → count_ones v = (List.range w).countP v.testBit := by
  intro w
  induction w with
  | zero =>
    intro v hv
    interval_cases v
    simp [count_ones_zero]
  | succ w ih =>
    intro v hv
    have hv2 : v / 2 < 2 ^ w := by
      rw [Nat.pow_succ] at hv; omega
    have h1 : (List.range w).countP (fun j => v.testBit (j + 1)) =
        (List.range w).countP (v / 2).testBit :=
      List.countP_congr fun j _ => by simp [Nat.testBit_succ]
    rw [count_ones_rec, countP_range_succ, h1, ← ih (v / 2) hv2,
      Nat.testBit_zero]
    by_cases h : v % 2 = 1 <;> simp [h] <;> omega

/-- Splitting a `countP` over an initial segment of the naturals. -/
theorem countP_range_add (a b : Nat) (p : Nat → Bool) :
    (List.range (a + b)).countP p =
      (List.range a).countP p + (List.range b).countP fun j => p (a + j) := by
  rw [List.range_add, List.countP_append, List.countP_map]
  rfl

/-! ### List access helpers -/

theorem getD_set_self {α : Type} (l : List α) (i : Nat) (x d : α)
    (h : i < l.length) : (l.set i x).getD i d = x := by
  simp [List.getD, List.getElem?_set_self, h]

theorem getD_set_ne {α : Type} (l : List α) (i j : Nat) (x d : α)
    (h : i ≠ j) : (l.set i x).getD j d = l.getD j d := by
  simp [List.getD, List.getElem?_set_ne h]

theorem set_getD_self {α : Type} (l : List α) (i : Nat) (d : α) :
    l.set i (l.getD i d) = l := by
  induction l generalizing i with
  | nil => rfl
  | cons x xs ih => cases i <;> simp_all [List.set, List.getD]

theorem getD_zipWith {α : Type} (f : α → α → α) (a b : List α) (k : Nat)
    (d : α) (h : a.length = b.length) (hk : k < a.length) :
    (List.zipWith f a b).getD k d = f (a.getD k d) (b.getD k d) := by
  induction a generalizing b k with
  | nil => simp at hk
  | cons x xs ih =>
    cases b with
    | nil => simp at h
    | cons y ys =>
      cases k with
      | zero => simp [List.getD]
      | succ k =>
        simp only [List.zipWith_cons_cons, List.getD_cons_succ]
        exact ih ys k (by simpa using h) (by simpa using hk)

theorem zip_all_iff {α : Type} (f : α → α → Bool) (d : α) :
    ∀ (a b : List α), a.length = b.length →
      (((a.zip b).all fun p => f p.1 p.2) = true ↔
        ∀ k < a.length, f (a.getD k d) (b.getD k d) = true) := by
  intro a
  induction a with
  | nil => intro b h; simp
  | cons x xs ih =>
    intro b h
    cases b with
    | nil => simp at h
    | cons y ys =>
      have hxy := ih ys (by simpa using h)
      constructor
      · intro hall k hk
        rw [List.zip_cons_cons, List.all_cons, Bool.and_eq_true] at hall
        cases k with
        | zero => simpa [List.getD] using hall.1
        | succ k =>
          simpa [List.getD] using hxy.mp hall.2 k (by simpa using hk)
      · intro hfa
        rw [List.zip_cons_cons, List.all_cons, Bool.and_eq_true]
        refine ⟨by simpa [List.getD] using hfa 0 (by simp), hxy.mpr ?_⟩
        intro k hk
        simpa [List.getD] using hfa (k + 1) (by simpa using hk)

theorem mask_words_length (w : Nat) :
    ∀ (a b m : List Nat), a.length = b.length → a.length = m.length →
      (Slice.mask_words w a b m).length = a.length := by
  intro a
  induction a with
  | nil => intro b m h1 h2; cases b <;> cases m <;> simp [Slice.mask_words]
  | cons x xs ih =>
    intro b m h1 h2
    cases b with
    | nil => simp at h1
    | cons y ys =>
      cases m with
      | nil => simp at h2
      | cons z zs =>
        simp [Slice.mask_words, ih ys zs (by simpa using h1) (by simpa using h2)]

theorem mask_words_getD (w : Nat) :
    ∀ (a b m : List Nat) (k : Nat), a.length = b.length →
      a.length = m.length → k < a.length →
      (Slice.mask_words w a b m).getD k 0 =
        (a.getD k 0 &&& notW w (m.getD k 0) ||| b.getD k 0 &&& m.getD k 0) := by
  intro a
  induction a with
  | nil => intro b m k h1 h2 hk; simp at hk
  | cons x xs ih =>
    intro b m k h1 h2 hk
    cases b with
    | nil => simp at h1
    | cons y ys =>
      cases m with
      | nil => simp at h2
      | cons z zs =>
        cases k with
        | zero => simp [Slice.mask_words, List.getD]
        | succ k =>
          simp only [Slice.mask_words, List.getD_cons_succ]
          exact ih ys zs k (by simpa using h1) (by simpa using h2)
            (by simpa using hk)

/-! ### Vector-shaped backend: block shape and flattening -/

theorem div_lt_len {w len i : Nat} (hw : 0 < w) (hi : i < len * w) :
    i / w < len :=
  Nat.div_lt_of_lt_mul (Nat.mul_comm len w ▸ hi)

theorem block_div {w : Nat} (k j : Nat) (hj : j < w) : (k * w + j) / w = k := by
  rw [Nat.mul_comm k w, Nat.mul_add_div (by omega), Nat.div_eq_of_lt hj,
    Nat.add_zero]

theorem block_mod {w : Nat} (k j : Nat) (hj : j < w) : (k * w + j) % w = j := by
  rw [Nat.mul_comm k w, Nat.mul_add_mod, Nat.mod_eq_of_lt hj]

theorem blocks_flatten_length {L : Nat} {bss : List (List Nat)}
    (hB : Blocks L bss) : bss.flatten.length = bss.length * L := by
  induction bss with
  | nil => simp
  | cons b t ih =>
    have hb : b.length = L := hB b (by simp)
    have ht : Blocks L t := fun blk h => hB blk (by simp [h])
    simp [ih ht, hb, Nat.add_mul, Nat.add_comm, Nat.succ_mul]

theorem flatten_getD {L : Nat} (hL : 0 < L) :
    ∀ (bss : List (List Nat)) (j : Nat), Blocks L bss →
      j < bss.length * L →
      bss.flatten.getD j 0 = (bss.getD (j / L) []).getD (j % L) 0 := by
  intro bss
  induction bss with
  | nil => intro j _ hj; simp at hj
  | cons b t ih =>
    intro j hB hj
    have hb : b.length = L := hB b (by simp)
    have ht : Blocks L t := fun blk h => hB blk (by simp [h])
    by_cases hjL : j < L
    · rw [List.flatten_cons, List.getD_append _ _ _ _ (by omega),
        Nat.div_eq_of_lt hjL, Nat.mod_eq_of_lt hjL]
      rfl
    · have hjL2 : L ≤ j := by omega
      rw [List.flatten_cons, List.getD_append_right _ _ _ _ (by omega), hb,
        Nat.div_eq_sub_div hL hjL2, Nat.mod_eq_sub_mod hjL2]
      rw [ih (j - L) ht (by rw [List.length_cons, Nat.succ_mul] at hj; omega)]
      rfl

theorem flatten_set {L : Nat} (hL : 0 < L) :
    ∀ (bss : List (List Nat)) (j x : Nat), Blocks L bss →
      j < bss.length * L →
      (bss.set (j / L) ((bss.getD (j / L) []).set (j % L) x)).flatten =
        bss.flatten.set j x := by
  intro bss
  induction bss with
  | nil => intro j x _ hj; simp at hj
  | cons b t ih =>
    intro j x hB hj
    have hb : b.length = L := hB b (by simp)
    have ht : Blocks L t := fun blk h => hB blk (by simp [h])
    by_cases hjL : j < L
    · rw [Nat.div_eq_of_lt hjL, Nat.mod_eq_of_lt hjL]
      simp only [List.getD_cons_zero, List.set_cons_zero, List.flatten_cons]
      rw [List.set_append_left _ _ (by omega)]
    · have hjL2 : L ≤ j := by omega
      rw [Nat.div_eq_sub_div hL hjL2, Nat.mod_eq_sub_mod hjL2]
      simp only [List.getD_cons_succ, List.set_cons_succ, List.flatten_cons]
      rw [ih (j - L) x ht (by rw [List.length_cons, Nat.succ_mul] at hj; omega),
        List.set_append_right _ _ (by omega), hb]

theorem bits_per_lane_eq {w L : Nat} (hL : 0 < L) :
    Simd.bits_per_lane w L = w := by
  rw [Simd.bits_per_lane, Simd.bits_per_word, Nat.mul_div_cancel_left w hL]

theorem blk_index_eq {w L : Nat} (bit : Nat) :
    Simd.blk_index w L bit = bit / w / L := by
  rw [Simd.blk_index, Simd.bits_per_word, Nat.div_div_eq_div_mul,
    Nat.mul_comm w L]

theorem lane_index_eq {w L : Nat} (hL : 0 < L) (bit : Nat) :
    Simd.lane_index w L bit = bit / w % L := by
  rw [Simd.lane_index, bits_per_lane_eq hL]

theorem lane_mask_eq {w L : Nat} (hL : 0 < L) (bit : Nat) :
    Simd.lane_mask w L bit = 1 <<< (bit % w) := by
  rw [Simd.lane_mask, bits_per_lane_eq hL]

theorem simd_len_eq_flatten {w L : Nat} {bss : List (List Nat)}
    (hB : Blocks L bss) :
    Simd.bit_len w L bss = Slice.bit_len w bss.flatten := by
  rw [Simd.bit_len, Simd.bits_per_word, Slice.bit_len,
    blocks_flatten_length hB, Nat.mul_assoc]

theorem flatword_lt {w L : Nat} {bss : List (List Nat)} {bit : Nat}
    (hw : 0 < w) (hbit : bit < Simd.bit_len w L bss) :
    bit / w < bss.length * L := by
  rw [Simd.bit_len, Simd.bits_per_word, ← Nat.mul_assoc] at hbit
  exact div_lt_len hw hbit

theorem simd_test_eq_flatten {w L : Nat} (hw : 0 < w) (hL : 0 < L)
    (bss : List (List Nat)) (bit : Nat) (hB : Blocks L bss)
    (hbit : bit < Simd.bit_len w L bss) :
    Simd.bit_test w L bss bit = Slice.bit_test w bss.flatten bit := by
  rw [Simd.bit_test, Slice.bit_test, blk_index_eq, lane_index_eq hL,
    lane_mask_eq hL, flatten_getD hL bss (bit / w) hB (flatword_lt hw hbit)]

theorem simd_set_eq_flatten {w L : Nat} (hw : 0 < w) (hL : 0 < L)
    (bss : List (List Nat)) (bit : Nat) (hB : Blocks L bss)
    (hbit : bit < Simd.bit_len w L bss) :
    (Simd.bit_set w L bss bit).flatten = Slice.bit_set w bss.flatten bit := by
  rw [Simd.bit_set, Slice.bit_set, blk_index_eq, lane_index_eq hL,
    lane_mask_eq hL, ← flatten_getD hL bss (bit / w) hB (flatword_lt hw hbit),
    flatten_set hL bss (bit / w) _ hB (flatword_lt hw hbit)]

theorem simd_reset_eq_flatten {w L : Nat} (hw : 0 < w) (hL : 0 < L)
    (bss : List (List Nat)) (bit : Nat) (hB : Blocks L bss)
    (hbit : bit < Simd.bit_len w L bss) :
    (Simd.bit_reset w L bss bit).flatten =
      Slice.bit_reset w bss.flatten bit := by
  rw [Simd.bit_reset, Slice.bit_reset, blk_index_eq, lane_index_eq hL,
    lane_mask_eq hL, ← flatten_getD hL bss (bit / w) hB (flatword_lt hw hbit),
    flatten_set hL bss (bit / w) _ hB (flatword_lt hw hbit)]

theorem simd_flip_eq_flatten {w L : Nat} (hw : 0 < w) (hL : 0 < L)
    (bss : List (List Nat)) (bit : Nat) (hB : Blocks L bss)
    (hbit : bit < Simd.bit_len w L bss) :
    (Simd.bit_flip w L bss bit).flatten =
      Slice.bit_flip w bss.flatten bit := by
  rw [Simd.bit_flip, Slice.bit_flip, blk_index_eq, lane_index_eq hL,
    lane_mask_eq hL, ← flatten_getD hL bss (bit / w) hB (flatword_lt hw hbit),
    flatten_set hL bss (bit / w) _ hB (flatword_lt hw hbit)]

theorem simd_cond_eq_flatten {w L : Nat} (hw : 0 < w) (hL : 0 < L)
    (bss : List (List Nat)) (bit : Nat) (value : Bool) (hB : Blocks L bss)
    (hbit : bit < Simd.bit_len w L bss) :
    (Simd.bit_cond w L bss bit value).flatten =
      Slice.bit_cond w bss.flatten bit value := by
  rw [Simd.bit_cond, Slice.bit_cond, blk_index_eq, lane_index_eq hL,
    lane_mask_eq hL, ← flatten_getD hL bss (bit / w) hB (flatword_lt hw hbit),
    flatten_set hL bss (bit / w) _ hB (flatword_lt hw hbit)]

theorem lanes_map_eq_map {L : Nat} (g : Nat → Nat) (blk : List Nat)
    (hb : blk.length = L) :
    ((List.range L).map fun j => g (blk.getD j 0)) = blk.map g := by
  refine List.ext_getElem (by simp [hb]) fun k h1 h2 => ?_
  have hk : k < L := by simpa using h1
  have hkb : k < blk.length := by omega
  simp [List.getD, List.getElem?_eq_getElem, hkb]

theorem lanes_map2_eq_zipWith {L : Nat} (f : Nat → Nat → Nat) (x y : List Nat)
    (hx : x.length = L) (hy : y.length = L) :
    Simd.lanes_map2 L f x y = List.zipWith f x y := by
  refine List.ext_getElem (by simp [Simd.lanes_map2, hx, hy]) fun k h1 h2 => ?_
  have hk : k < L := by simpa [Simd.lanes_map2] using h1
  have hkx : k < x.length := by omega
  have hky : k < y.length := by omega
  simp [Simd.lanes_map2, List.getD, List.getElem?_eq_getElem, hkx, hky]

theorem flatten_zipWith {L : Nat} (f : Nat → Nat → Nat) :
    ∀ (a b : List (List Nat)), Blocks L a → Blocks L b →
      a.length = b.length →
      (List.zipWith (List.zipWith f) a b).flatten =
        List.zipWith f a.flatten b.flatten := by
  intro a
  induction a with
  | nil => intro b _ _ h; cases b <;> simp at h ⊢
  | cons x xs ih =>
    intro b hA hB h
    cases b with
    | nil => simp at h
    | cons y ys =>
      have hx : x.length = L := hA x (by simp)
      have hy : y.length = L := hB y (by simp)
      have hxs : Blocks L xs := fun blk hb => hA blk (by simp [hb])
      have hys : Blocks L ys := fun blk hb => hB blk (by simp [hb])
      simp only [List.zipWith_cons_cons, List.flatten_cons]
      rw [ih ys hxs hys (by simpa using h),
        List.zipWith_append _ _ _ _ _ (by omega)]

theorem zipWith_lanes_eq {L : Nat} (f : Nat → Nat → Nat) :
    ∀ (a b : List (List Nat)), Blocks L a → Blocks L b →
      List.zipWith (Simd.lanes_map2 L f) a b =
        List.zipWith (List.zipWith f) a b := by
  intro a
  induction a with
  | nil => intro b _ _; simp
  | cons x xs ih =>
    intro b hA hB
    cases b with
    | nil => simp
    | cons y ys =>
      have hx : x.length = L := hA x (by simp)
      have hy : y.length = L := hB y (by simp)
      have hxs : Blocks L xs := fun blk hb => hA blk (by simp [hb])
      have hys : Blocks L ys := fun blk hb => hB blk (by simp [hb])
      simp only [List.zipWith_cons_cons]
      rw [ih ys hxs hys, lanes_map2_eq_zipWith f x y hx hy]

theorem flatten_inj {L : Nat} :
    ∀ (a b : List (List Nat)), Blocks L a → Blocks L b →
      a.length = b.length → a.flatten = b.flatten → a = b := by
  intro a
  induction a with
  | nil => intro b _ _ h _; cases b <;> simp_all
  | cons x xs ih =>
    intro b hA hB h hf
    cases b with
    | nil => simp at h
    | cons y ys =>
      have hx : x.length = L := hA x (by simp)
      have hy : y.length = L := hB y (by simp)
      have hxs : Blocks L xs := fun blk hb => hA blk (by simp [hb])
      have hys : Blocks L ys := fun blk hb => hB blk (by simp [hb])
      simp only [List.flatten_cons] at hf
      obtain ⟨h1, h2⟩ := List.append_inj hf (by omega)
      rw [h1, ih ys hxs hys (by simpa using h) h2]

theorem beq_replicate_iff {L : Nat} (b : List Nat) (c : Nat)
    (hb : b.length = L) :
    (b == List.replicate L c) = b.all fun x => x == c := by
  rw [Bool.eq_iff_iff, beq_iff_eq, List.all_eq_true, List.eq_replicate_iff]
  constructor
  · rintro ⟨_, h2⟩ x hx
    exact beq_iff_eq.mpr (h2 x hx)
  · intro h
    exact ⟨hb, fun x hx => beq_iff_eq.mp (h x hx)⟩

theorem bne_replicate_iff {L : Nat} (b : List Nat) (hb : b.length = L) :
    (b != List.replicate L 0) = b.any fun x => x != 0 := by
  rw [Bool.eq_iff_iff, bne_iff_ne, List.any_eq_true]
  rw [Ne, List.eq_replicate_iff, not_and]
  constructor
  · intro h
    rcases not_forall.mp (h hb) with ⟨x, hx⟩
    rcases Classical.not_imp.mp hx with ⟨hx1, hx2⟩
    exact ⟨x, hx1, bne_iff_ne.mpr hx2⟩
  · rintro ⟨x, hx1, hx2⟩ _
    intro hall
    exact (bne_iff_ne.mp hx2) (hall x hx1)

theorem simd_init_eq_flatten {w L : Nat} (value : Bool) :
    ∀ (bss : List (List Nat)), Blocks L bss →
      (Simd.bit_init w L bss value).flatten =
        Slice.bit_init w bss.flatten value := by
  intro bss
  induction bss with
  | nil => intro _; simp [Simd.bit_init, Slice.bit_init]
  | cons b t ih =>
    intro hB
    have hb : b.length = L := hB b (by simp)
    have ht : Blocks L t := fun blk h => hB blk (by simp [h])
    have ihht := ih ht
    simp only [Simd.bit_init, List.map_cons, List.flatten_cons,
      Slice.bit_init, List.map_append] at ihht ⊢
    rw [ihht]
    congr 1
    refine (List.eq_replicate_iff.mpr ⟨by simp [hb], fun x hx => ?_⟩).symm
    simp at hx
    exact hx.2

theorem simd_all_eq_flatten {w L : Nat} :
    ∀ (bss : List (List Nat)), Blocks L bss →
      Simd.bit_all w L bss = Slice.bit_all w bss.flatten := by
  intro bss
  induction bss with
  | nil => intro _; rfl
  | cons b t ih =>
    intro hB
    have hb : b.length = L := hB b (by simp)
    have ht : Blocks L t := fun blk h => hB blk (by simp [h])
    have ihht := ih ht
    simp only [Simd.bit_all, List.all_cons, Slice.bit_all, List.flatten_cons,
      List.all_append] at ihht ⊢
    rw [ihht, beq_replicate_iff b _ hb]

theorem simd_any_eq_flatten {L : Nat} :
    ∀ (bss : List (List Nat)), Blocks L bss →
      Simd.bit_any L bss = Slice.bit_any bss.flatten := by
  intro bss
  induction bss with
  | nil => intro _; rfl
  | cons b t ih =>
    intro hB
    have hb : b.length = L := hB b (by simp)
    have ht : Blocks L t := fun blk h => hB blk (by simp [h])
    have ihht := ih ht
    simp only [Simd.bit_any, List.any_cons, Slice.bit_any, List.flatten_cons,
      List.any_append] at ihht ⊢
    rw [ihht, bne_replicate_iff b hb]

theorem getD_mem {α : Type} (l : List α) (n : Nat) (d : α)
    (h : n < l.length) : l.getD n d ∈ l := by
  rw [List.getD_eq_getElem l d h]; exact List.getElem_mem h

theorem range_map_getD {L : Nat} (g : Nat → Nat) (j : Nat) (hj : j < L) :
    ((List.range L).map g).getD j 0 = g j := by
  rw [List.getD_eq_getElem _ _ (by simp [hj])]
  simp

theorem list_eq_iff_getD {α : Type} (d : α) (a b : List α)
    (h : a.length = b.length) :
    a = b ↔ ∀ k < a.length, a.getD k d = b.getD k d := by
  constructor
  · intro he k _; rw [he]
  · intro hk
    refine List.ext_getElem h fun i h1 h2 => ?_
    rw [← List.getD_eq_getElem a d h1, ← List.getD_eq_getElem b d h2]
    exact hk i h1

theorem forall_flat_iff {L : Nat} (hL : 0 < L) (n : Nat) (P : Nat → Prop) :
    (∀ m, m < n * L → P m) ↔ ∀ k, k < n → ∀ j, j < L → P (k * L + j) := by
  constructor
  · intro h k hk j hj
    refine h _ (Nat.lt_of_lt_of_le (show k * L + j < (k + 1) * L by
      rw [Nat.add_mul, Nat.one_mul]; omega) (Nat.mul_le_mul_right L hk))
  · intro h m hm
    have hme : m / L * L + m % L = m := by
      rw [Nat.mul_comm]; exact Nat.div_add_mod m L
    have := h (m / L) (div_lt_len hL hm) (m % L) (Nat.mod_lt _ hL)
    rwa [hme] at this

theorem flatten_len_eq_iff {L : Nat} (hL : 0 < L) {a b : List (List Nat)}
    (hA : Blocks L a) (hB : Blocks L b) :
    a.flatten.length = b.flatten.length ↔ a.length = b.length := by
  rw [blocks_flatten_length hA, blocks_flatten_length hB]
  exact ⟨fun h => Nat.eq_of_mul_eq_mul_right hL h, fun h => by rw [h]⟩

theorem zip_all_beq_iff {α : Type} [BEq α] [LawfulBEq α] :
    ∀ (a b : List α), a.length = b.length →
      (((a.zip b).all fun p => p.1 == p.2) = true ↔ a = b) := by
  intro a
  induction a with
  | nil => intro b h; cases b <;> simp_all
  | cons x xs ih =>
    intro b h
    cases b with
    | nil => simp at h
    | cons y ys =>
      rw [List.zip_cons_cons, List.all_cons, Bool.and_eq_true,
        beq_iff_eq, ih ys (by simpa using h)]
      constructor
      · rintro ⟨h1, h2⟩; simp at h1; rw [h1, h2]
      · intro he; injection he with h1 h2; exact ⟨h1, h2⟩

theorem simd_eq_eq_flatten {L : Nat} (hL : 0 < L) (a b : List (List Nat))
    (hA : Blocks L a) (hB : Blocks L b) :
    Simd.bit_eq a b = Slice.bit_eq a.flatten b.flatten := by
  by_cases h : a.length = b.length
  · have hf : a.flatten.length = b.flatten.length :=
      (flatten_len_eq_iff hL hA hB).mpr h
    rw [Simd.bit_eq, Slice.bit_eq, if_pos h, if_pos hf]
    congr 1
    rw [Bool.eq_iff_iff, zip_all_beq_iff a b h, zip_all_beq_iff _ _ hf]
    exact ⟨fun he => by rw [he], fun he => flatten_inj a b hA hB h he⟩
  · rw [Simd.bit_eq, Slice.bit_eq, if_neg h,
      if_neg (fun hf => h ((flatten_len_eq_iff hL hA hB).mp hf))]

theorem block_lt {L : Nat} (k j n : Nat) (hk : k < n) (hj : j < L) :
    k * L + j < n * L :=
  Nat.lt_of_lt_of_le (by rw [Nat.succ_mul]; omega)
    (Nat.mul_le_mul_right L hk)

theorem lanes_map2_beq_replicate_iff {L : Nat} (f : Nat → Nat → Nat)
    (x y : List Nat) :
    (Simd.lanes_map2 L f x y == List.replicate L 0) = true ↔
      ∀ j, j < L → f (x.getD j 0) (y.getD j 0) = 0 := by
  rw [beq_iff_eq, List.eq_replicate_iff]
  simp [Simd.lanes_map2]

theorem lanes_map2_beq_iff {L : Nat} (f : Nat → Nat → Nat) (x y : List Nat)
    (hy : y.length = L) :
    (Simd.lanes_map2 L f x y == y) = true ↔
      ∀ j, j < L → f (x.getD j 0) (y.getD j 0) = y.getD j 0 := by
  rw [beq_iff_eq, list_eq_iff_getD 0 _ _ (by simp [Simd.lanes_map2, hy])]
  constructor
  · intro hm j hj
    have := hm j (by simpa [Simd.lanes_map2] using hj)
    rwa [show (Simd.lanes_map2 L f x y).getD j 0 =
      f (x.getD j 0) (y.getD j 0) from range_map_getD _ j hj] at this
  · intro hj k hk
    have hkL : k < L := by simpa [Simd.lanes_map2] using hk
    rw [show Simd.lanes_map2 L f x y =
      (List.range L).map (fun j => f (x.getD j 0) (y.getD j 0)) from rfl,
      range_map_getD _ k hkL]
    exact hj k hkL

theorem flatten_getD_block {L : Nat} (hL : 0 < L) {a : List (List Nat)}
    (hA : Blocks L a) {k j : Nat} (hk : k < a.length) (hj : j < L) :
    a.flatten.getD (k * L + j) 0 = (a.getD k []).getD j 0 := by
  rw [flatten_getD hL a (k * L + j) hA (block_lt k j a.length hk hj),
    block_div k j hj, block_mod k j hj]

theorem simd_disjoint_eq_flatten {L : Nat} (hL : 0 < L)
    (a b : List (List Nat)) (hA : Blocks L a) (hB : Blocks L b) :
    Simd.bit_disjoint L a b = Slice.bit_disjoint a.flatten b.flatten := by
  by_cases h : a.length = b.length
  · have hf : a.flatten.length = b.flatten.length :=
      (flatten_len_eq_iff hL hA hB).mpr h
    rw [Simd.bit_disjoint, Slice.bit_disjoint, if_pos h, if_pos hf]
    congr 1
    rw [Bool.eq_iff_iff,
      zip_all_iff (fun x y =>
        Simd.lanes_map2 L (fun u v => u &&& v) x y == List.replicate L 0)
        ([] : List Nat) a b h,
      zip_all_iff (fun u v => u &&& v == 0) (0 : Nat) _ _ hf,
      blocks_flatten_length hA]
    rw [forall_flat_iff hL a.length
      (fun m => (a.flatten.getD m 0 &&& b.flatten.getD m 0 == 0) = true)]
    refine forall_congr' fun k => imp_congr_right fun hk => ?_
    rw [lanes_map2_beq_replicate_iff]
    refine forall_congr' fun j => imp_congr_right fun hj => ?_
    rw [flatten_getD_block hL hA hk hj,
      flatten_getD_block hL hB (h ▸ hk) hj, beq_iff_eq]
  · rw [Simd.bit_disjoint, Slice.bit_disjoint, if_neg h,
      if_neg (fun hf => h ((flatten_len_eq_iff hL hA hB).mp hf))]

theorem simd_subset_eq_flatten {L : Nat} (hL : 0 < L)
    (a b : List (List Nat)) (hA : Blocks L a) (hB : Blocks L b) :
    Simd.bit_subset L a b = Slice.bit_subset a.flatten b.flatten := by
  by_cases h : a.length = b.length
  · have hf : a.flatten.length = b.flatten.length :=
      (flatten_len_eq_iff hL hA hB).mpr h
    rw [Simd.bit_subset, Slice.bit_subset, if_pos h, if_pos hf]
    congr 1
    rw [Bool.eq_iff_iff,
      zip_all_iff (fun x y =>
        Simd.lanes_map2 L (fun u v => u ||| v) x y == y)
        ([] : List Nat) a b h,
      zip_all_iff (fun u v => u ||| v == v) (0 : Nat) _ _ hf,
      blocks_flatten_length hA]
    rw [forall_flat_iff hL a.length
      (fun m => (a.flatten.getD m 0 ||| b.flatten.getD m 0 ==
        b.flatten.getD m 0) = true)]
    refine forall_congr' fun k => imp_congr_right fun hk => ?_
    rw [lanes_map2_beq_iff _ _ _ (hB _ (getD_mem b k [] (h ▸ hk)))]
    refine forall_congr' fun j => imp_congr_right fun hj => ?_
    rw [flatten_getD_block hL hA hk hj,
      flatten_getD_block hL hB (h ▸ hk) hj, beq_iff_eq]
  · rw [Simd.bit_subset, Slice.bit_subset, if_neg h,
      if_neg (fun hf => h ((flatten_len_eq_iff hL hA hB).mp hf))]

theorem simd_or_eq_flatten {L : Nat} (hL : 0 < L) (a b : List (List Nat))
    (hA : Blocks L a) (hB : Blocks L b) :
    (Simd.bit_or L a b).map List.flatten = Slice.bit_or a.flatten b.flatten := by
  by_cases h : a.length = b.length
  · rw [Simd.bit_or, Slice.bit_or, if_pos h,
      if_pos ((flatten_len_eq_iff hL hA hB).mpr h), Option.map_some']
    rw [zipWith_lanes_eq _ a b hA hB, flatten_zipWith _ a b hA hB h]
  · rw [Simd.bit_or, Slice.bit_or, if_neg h,
      if_neg (fun hf => h ((flatten_len_eq_iff hL hA hB).mp hf)),
      Option.map_none']

theorem simd_and_eq_flatten {L : Nat} (hL : 0 < L) (a b : List (List Nat))
    (hA : Blocks L a) (hB : Blocks L b) :
    (Simd.bit_and L a b).map List.flatten =
      Slice.bit_and a.flatten b.flatten := by
  by_cases h : a.length = b.length
  · rw [Simd.bit_and, Slice.bit_and, if_pos h,
      if_pos ((flatten_len_eq_iff hL hA hB).mpr h), Option.map_some']
    rw [zipWith_lanes_eq _ a b hA hB, flatten_zipWith _ a b hA hB h]
  · rw [Simd.bit_and, Slice.bit_and, if_neg h,
      if_neg (fun hf => h ((flatten_len_eq_iff hL hA hB).mp hf)),
      Option.map_none']

theorem simd_andnot_eq_flatten {w L : Nat} (hL : 0 < L) (a b : List (List Nat))
    (hA : Blocks L a) (hB : Blocks L b) :
    (Simd.bit_andnot w L a b).map List.flatten =
      Slice.bit_andnot w a.flatten b.flatten := by
  by_cases h : a.length = b.length
  · rw [Simd.bit_andnot, Slice.bit_andnot, if_pos h,
      if_pos ((flatten_len_eq_iff hL hA hB).mpr h), Option.map_some']
    rw [zipWith_lanes_eq _ a b hA hB, flatten_zipWith _ a b hA hB h]
  · rw [Simd.bit_andnot, Slice.bit_andnot, if_neg h,
      if_neg (fun hf => h ((flatten_len_eq_iff hL hA hB).mp hf)),
      Option.map_none']

theorem simd_xor_eq_flatten {L : Nat} (hL : 0 < L) (a b : List (List Nat))
    (hA : Blocks L a) (hB : Blocks L b) :
    (Simd.bit_xor L a b).map List.flatten =
      Slice.bit_xor a.flatten b.flatten := by
  by_cases h : a.length = b.length
  · rw [Simd.bit_xor, Slice.bit_xor, if_pos h,
      if_pos ((flatten_len_eq_iff hL hA hB).mpr h), Option.map_some']
    rw [zipWith_lanes_eq _ a b hA hB, flatten_zipWith _ a b hA hB h]
  · rw [Simd.bit_xor, Slice.bit_xor, if_neg h,
      if_neg (fun hf => h ((flatten_len_eq_iff hL hA hB).mp hf)),
      Option.map_none']

theorem simd_not_eq_flatten {w L : Nat} :
    ∀ (bss : List (List Nat)), Blocks L bss →
      (Simd.bit_not w L bss).flatten = Slice.bit_not w bss.flatten := by
  intro bss
  induction bss with
  | nil => intro _; rfl
  | cons b t ih =>
    intro hB
    have hb : b.length = L := hB b (by simp)
    have ht : Blocks L t := fun blk hm => hB blk (by simp [hm])
    have ihht := ih ht
    simp only [Simd.bit_not, List.map_cons, List.flatten_cons,
      Slice.bit_not, List.map_append] at ihht ⊢
    rw [ihht, lanes_map_eq_map _ b hb]

theorem mask_words_append (w : Nat) :
    ∀ (u v t a2 b2 c2 : List Nat), u.length = v.length → u.length = t.length →
      Slice.mask_words w (u ++ a2) (v ++ b2) (t ++ c2) =
        Slice.mask_words w u v t ++ Slice.mask_words w a2 b2 c2 := by
  intro u
  induction u with
  | nil =>
    intro v t a2 b2 c2 h1 h2
    cases v with
    | nil =>
      cases t with
      | nil => simp [show Slice.mask_words w [] [] [] = [] from rfl]
      | cons tt ts => simp at h2
    | cons vv vs => simp at h1
  | cons uu us ihu =>
    intro v t a2 b2 c2 h1 h2
    cases v with
    | nil => simp at h1
    | cons vv vs =>
      cases t with
      | nil => simp at h2
      | cons tt ts =>
        simp only [List.cons_append, Slice.mask_words, List.append_eq]
        rw [ihu vs ts a2 b2 c2 (by simpa using h1) (by simpa using h2)]

theorem simd_mask_blocks_eq {w L : Nat} :
    ∀ (a b m : List (List Nat)), Blocks L a → Blocks L b → Blocks L m →
      a.length = b.length → a.length = m.length →
      (Simd.mask_blocks w L a b m).flatten =
        Slice.mask_words w a.flatten b.flatten m.flatten := by
  intro a
  induction a with
  | nil =>
    intro b m _ _ _ h1 h2
    cases b <;> cases m <;> simp_all [Simd.mask_blocks, Slice.mask_words]
  | cons x xs ih =>
    intro b m hA hB hM h1 h2
    cases b with
    | nil => simp at h1
    | cons y ys =>
      cases m with
      | nil => simp at h2
      | cons z zs =>
        have hx : x.length = L := hA x (by simp)
        have hy : y.length = L := hB y (by simp)
        have hz : z.length = L := hM z (by simp)
        have hxs : Blocks L xs := fun blk hm => hA blk (by simp [hm])
        have hys : Blocks L ys := fun blk hm => hB blk (by simp [hm])
        have hzs : Blocks L zs := fun blk hm => hM blk (by simp [hm])
        have hperblock : Simd.mask_blocks w L (x :: xs) (y :: ys) (z :: zs) =
            ((List.range L).map fun j =>
              x.getD j 0 &&& notW w (z.getD j 0) ||| y.getD j 0 &&& z.getD j 0)
              :: Simd.mask_blocks w L xs ys zs := rfl
        have hlane : ((List.range L).map fun j =>
            x.getD j 0 &&& notW w (z.getD j 0) ||| y.getD j 0 &&& z.getD j 0) =
            Slice.mask_words w x y z := by
          refine List.ext_getElem (by simp [mask_words_length w x y z
            (by omega) (by omega), hx]) fun k h1 h2 => ?_
          have hkL : k < L := by simpa using h1
          rw [← List.getD_eq_getElem _ 0 h1, ← List.getD_eq_getElem _ 0 h2,
            range_map_getD _ k hkL,
            mask_words_getD w x y z k (by omega) (by omega) (by omega)]
        rw [hperblock, List.flatten_cons, hlane,
          ih ys zs hxs hys hzs (by simpa using h1) (by simpa using h2),
          List.flatten_cons, List.flatten_cons, List.flatten_cons,
          mask_words_append w x y z _ _ _ (by omega) (by omega)]

theorem simd_mask_eq_flatten {w L : Nat} (hL : 0 < L)
    (a b m : List (List Nat)) (hA : Blocks L a) (hB : Blocks L b)
    (hM : Blocks L m) :
    (Simd.bit_mask w L a b m).map List.flatten =
      Slice.bit_mask w a.flatten b.flatten m.flatten := by
  by_cases h : a.length = b.length ∧ a.length = m.length
  · rw [Simd.bit_mask, Slice.bit_mask, if_pos h,
      if_pos ⟨(flatten_len_eq_iff hL hA hB).mpr h.1,
        (flatten_len_eq_iff hL hA hM).mpr h.2⟩, Option.map_some']
    rw [simd_mask_blocks_eq a b m hA hB hM h.1 h.2]
  · rw [Simd.bit_mask, Slice.bit_mask, if_neg h, if_neg (fun hf => h
      ⟨(flatten_len_eq_iff hL hA hB).mp hf.1,
        (flatten_len_eq_iff hL hA hM).mp hf.2⟩), Option.map_none']

theorem simd_count_eq_flatten {L : Nat} :
    ∀ (bss : List (List Nat)), Blocks L bss →
      Simd.bit_count L bss = Slice.bit_count bss.flatten := by
  intro bss
  induction bss with
  | nil => intro _; simp [Simd.bit_count, Slice.bit_count]
  | cons b t ih =>
    intro hB
    have hb : b.length = L := hB b (by simp)
    have ht : Blocks L t := fun blk hm => hB blk (by simp [hm])
    have step : Simd.bit_count L (b :: t) =
        ((List.range L).map fun j => count_ones (b.getD j 0)).sum +
          Simd.bit_count L t := by
      rw [Simd.bit_count, Simd.bit_count]
      rw [show ((List.range L).map fun j =>
          ((b :: t).map fun blk => count_ones (blk.getD j 0)).sum) =
          (List.range L).map fun j => count_ones (b.getD j 0) +
            ((t.map fun blk => count_ones (blk.getD j 0)).sum) from by
        simp]
      rw [List.sum_map_add]
    rw [step, ih ht, lanes_map_eq_map _ b hb, List.flatten_cons,
      Slice.bit_count, Slice.bit_count, List.map_append, List.sum_append]

/-! ### Sparse backend: singleton-slice reductions -/

theorem sparse_word_test (s v b : Nat) (hb : b < 8 * s) :
    Slice.bit_test (8 * s) [v] b = v.testBit b := by
  rw [Slice.bit_test, Nat.div_eq_of_lt hb, Nat.mod_eq_of_lt hb]
  rw [show ([v].getD 0 0) = v from rfl, ← Uint.bit_test_usize,
    uint_test_eq_testBit]

theorem sparse_word_set (s v b : Nat) (hb : b < 8 * s) :
    (Slice.bit_set (8 * s) [v] b).getD 0 0 = v ||| 1 <<< b := by
  rw [Slice.bit_set, Nat.div_eq_of_lt hb, Nat.mod_eq_of_lt hb]
  rfl

theorem sparse_word_reset (s v b : Nat) (hb : b < 8 * s) :
    (Slice.bit_reset (8 * s) [v] b).getD 0 0 =
      v &&& notW (8 * s) (1 <<< b) := by
  rw [Slice.bit_reset, Nat.div_eq_of_lt hb, Nat.mod_eq_of_lt hb]
  rfl

theorem sparse_word_flip (s v b : Nat) (hb : b < 8 * s) :
    (Slice.bit_flip (8 * s) [v] b).getD 0 0 = v ^^^ 1 <<< b := by
  rw [Slice.bit_flip, Nat.div_eq_of_lt hb, Nat.mod_eq_of_lt hb]
  rfl

theorem sparse_word_or (v r : Nat) :
    ((Slice.bit_or [v] [r]).getD []).getD 0 0 = v ||| r := by
  simp [Slice.bit_or]

theorem sparse_word_and (v r : Nat) :
    ((Slice.bit_and [v] [r]).getD []).getD 0 0 = v &&& r := by
  simp [Slice.bit_and]

theorem sparse_word_andnot (s v r : Nat) :
    ((Slice.bit_andnot (8 * s) [v] [r]).getD []).getD 0 0 =
      v &&& notW (8 * s) r := by
  simp [Slice.bit_andnot]

theorem sparse_word_mask (s v r mk : Nat) :
    ((Slice.bit_mask (8 * s) [v] [r] [mk]).getD []).getD 0 0 =
      v &&& notW (8 * s) mk ||| r &&& mk := by
  simp [Slice.bit_mask, Slice.mask_words]

theorem sparse_word_count (v : Nat) : Slice.bit_count [v] = count_ones v := by
  simp [Slice.bit_count]

theorem sparse_test_eq {s : Nat} (hs : 0 < s) (m : List (Nat × Nat))
    (bit : Nat) :
    Sparse.bit_test s m bit = (Sparse.getD m (bit / s)).testBit (bit % s) := by
  rcases h : Sparse.find? m (bit / s) with _ | v
  · rw [Sparse.bit_test, h, Sparse.getD, h, Option.getD_none,
      Nat.zero_testBit]
  · rw [Sparse.bit_test, h]
    show Slice.bit_test (8 * s) [v] (bit % s) = _
    rw [Sparse.getD, h, Option.getD_some,
      sparse_word_test s v (bit % s) (by have := Nat.mod_lt bit hs; omega)]

/-! ### Sparse backend: association-list lemmas -/

theorem find?_eq_none_of_lt {key : Nat} :
    ∀ (m : List (Nat × Nat)), (∀ kv ∈ m, key < kv.1) →
      Sparse.find? m key = none := by
  intro m
  induction m with
  | nil => intro _; rfl
  | cons kv t ih =>
    intro h
    rw [Sparse.find?, if_neg (by have := h kv (by simp); omega)]
    exact ih fun kv2 h2 => h kv2 (by simp [h2])

theorem sorted_cons_iff (kv : Nat × Nat) (m : List (Nat × Nat)) :
    Sparse.sorted_keys (kv :: m) = true ↔
      (∀ kv2 ∈ m, kv.1 < kv2.1) ∧ Sparse.sorted_keys m = true := by
  simp [Sparse.sorted_keys, List.all_eq_true]

theorem find?_update_entry_self (key : Nat) (f : Nat → Nat) :
    ∀ (m : List (Nat × Nat)), Sparse.sorted_keys m = true →
      Sparse.find? (Sparse.update_entry m key f) key =
        some (f (Sparse.getD m key)) := by
  intro m
  induction m with
  | nil => intro _; simp [Sparse.update_entry, Sparse.find?, Sparse.getD]
  | cons kv t ih =>
    intro hs
    rcases sorted_cons_iff kv t |>.mp hs with ⟨hlt, hst⟩
    rw [Sparse.update_entry]
    by_cases h1 : key < kv.1
    · rw [if_pos h1, Sparse.find?, if_pos rfl, Sparse.getD, Sparse.find?,
        if_neg (by omega),
        find?_eq_none_of_lt t (fun kv2 h2 => by have := hlt kv2 h2; omega)]
      rfl
    · rw [if_neg h1]
      by_cases h2 : key = kv.1
      · rw [if_pos h2, Sparse.find?, if_pos rfl, Sparse.getD, Sparse.find?,
          if_pos h2]
        rfl
      · have hgd : Sparse.getD (kv :: t) key = Sparse.getD t key := by
          rw [Sparse.getD, Sparse.getD, Sparse.find?, if_neg h2]
        rw [if_neg h2, Sparse.find?, if_neg h2, ih hst, hgd]

theorem find?_update_entry_ne (key key2 : Nat) (f : Nat → Nat)
    (hne : key2 ≠ key) :
    ∀ (m : List (Nat × Nat)),
      Sparse.find? (Sparse.update_entry m key f) key2 =
        Sparse.find? m key2 := by
  intro m
  induction m with
  | nil => simp [Sparse.update_entry, Sparse.find?, hne]
  | cons kv t ih =>
    rw [Sparse.update_entry]
    by_cases h1 : key < kv.1
    · rw [if_pos h1, Sparse.find?, if_neg hne]
    · rw [if_neg h1]
      by_cases h2 : key = kv.1
      · rw [if_pos h2, Sparse.find?, Sparse.find?, ← h2, if_neg hne,
          h2, if_neg (by omega)]
      · rw [if_neg h2, Sparse.find?, Sparse.find?]
        by_cases h3 : key2 = kv.1
        · rw [if_pos h3, if_pos h3]
        · rw [if_neg h3, if_neg h3, ih]

theorem mem_update_entry (key : Nat) (f : Nat → Nat) :
    ∀ (m : List (Nat × Nat)) (e : Nat × Nat), e ∈ Sparse.update_entry m key f →
      e ∈ m ∨ (e.1 = key ∧ (e.2 = f 0 ∨ ∃ v, (key, v) ∈ m ∧ e.2 = f v)) := by
  intro m
  induction m with
  | nil =>
    intro e he
    simp [Sparse.update_entry] at he
    right
    rw [he]
    exact ⟨rfl, Or.inl rfl⟩
  | cons kv t ih =>
    intro e he
    rw [Sparse.update_entry] at he
    by_cases h1 : key < kv.1
    · rw [if_pos h1] at he
      rcases List.mem_cons.mp he with h | h
      · right; rw [h]; exact ⟨rfl, Or.inl rfl⟩
      · left; exact h
    · rw [if_neg h1] at he
      by_cases h2 : key = kv.1
      · rw [if_pos h2] at he
        rcases List.mem_cons.mp he with h | h
        · right
          rw [h]
          exact ⟨rfl, Or.inr ⟨kv.2, by simp [h2], rfl⟩⟩
        · left; simp [h]
      · rw [if_neg h2] at he
        rcases List.mem_cons.mp he with h | h
        · left; simp [h]
        · rcases ih e h with h3 | ⟨h3, h4⟩
          · left; simp [h3]
          · right
            refine ⟨h3, ?_⟩
            rcases h4 with h4 | ⟨v, h5, h6⟩
            · exact Or.inl h4
            · exact Or.inr ⟨v, by simp [h5], h6⟩

theorem sorted_update_entry (key : Nat) (f : Nat → Nat) :
    ∀ (m : List (Nat × Nat)), Sparse.sorted_keys m = true →
      Sparse.sorted_keys (Sparse.update_entry m key f) = true := by
  intro m
  induction m with
  | nil => intro _; simp [Sparse.update_entry, Sparse.sorted_keys]
  | cons kv t ih =>
    intro hs
    rcases sorted_cons_iff kv t |>.mp hs with ⟨hlt, hst⟩
    rw [Sparse.update_entry]
    by_cases h1 : key < kv.1
    · rw [if_pos h1, sorted_cons_iff]
      refine ⟨fun kv2 h2 => ?_, hs⟩
      rcases List.mem_cons.mp h2 with h | h
      · rw [h]; exact h1
      · have := hlt kv2 h; omega
    · rw [if_neg h1]
      by_cases h2 : key = kv.1
      · rw [if_pos h2, sorted_cons_iff]
        exact ⟨fun kv2 hm => by have := hlt kv2 hm; omega, hst⟩
      · rw [if_neg h2, sorted_cons_iff]
        refine ⟨fun kv2 hm => ?_, ih hst⟩
        rcases mem_update_entry key f t kv2 hm with h | ⟨h3, _⟩
        · exact hlt kv2 h
        · omega

theorem find?_modify_self (key : Nat) (f : Nat → Nat) :
    ∀ (m : List (Nat × Nat)),
      Sparse.find? (Sparse.modify_entry m key f) key =
        (Sparse.find? m key).map f := by
  intro m
  induction m with
  | nil => rfl
  | cons kv t ih =>
    rw [Sparse.modify_entry, List.map_cons]
    by_cases h : kv.1 = key
    · rw [if_pos h, Sparse.find?, if_pos h.symm, Sparse.find?, if_pos h.symm,
        Option.map_some']
    · rw [if_neg h, Sparse.find?, if_neg (fun hh => h hh.symm), Sparse.find?,
        if_neg (fun hh => h hh.symm), ← ih, Sparse.modify_entry]

theorem find?_modify_ne (key key2 : Nat) (f : Nat → Nat) (hne : key2 ≠ key) :
    ∀ (m : List (Nat × Nat)),
      Sparse.find? (Sparse.modify_entry m key f) key2 =
        Sparse.find? m key2 := by
  intro m
  induction m with
  | nil => rfl
  | cons kv t ih =>
    rw [Sparse.modify_entry, List.map_cons]
    by_cases h : kv.1 = key
    · rw [if_pos h, Sparse.find?, Sparse.find?,
        if_neg (by rw [h]; exact hne), if_neg (by rw [h]; exact hne), ← ih,
        Sparse.modify_entry]
    · rw [if_neg h, Sparse.find?, Sparse.find?]
      by_cases h2 : key2 = kv.1
      · rw [if_pos h2, if_pos h2]
      · rw [if_neg h2, if_neg h2, ← ih, Sparse.modify_entry]

theorem mem_modify_entry (key : Nat) (f : Nat → Nat) (m : List (Nat × Nat))
    (e : Nat × Nat) (he : e ∈ Sparse.modify_entry m key f) :
    e ∈ m ∨ ∃ v, (key, v) ∈ m ∧ e = (key, f v) := by
  rw [Sparse.modify_entry] at he
  rcases List.mem_map.mp he with ⟨kv, hkv, hge⟩
  by_cases h : kv.1 = key
  · rw [if_pos h] at hge
    right
    exact ⟨kv.2, by rw [← h]; exact hkv, hge.symm ▸ by rw [h]⟩
  · rw [if_neg h] at hge
    left
    rw [← hge]
    exact hkv

theorem sorted_modify_entry (key : Nat) (f : Nat → Nat) :
    ∀ (m : List (Nat × Nat)), Sparse.sorted_keys m = true →
      Sparse.sorted_keys (Sparse.modify_entry m key f) = true := by
  intro m
  induction m with
  | nil => intro _; rfl
  | cons kv t ih =>
    intro hs
    rcases sorted_cons_iff kv t |>.mp hs with ⟨hlt, hst⟩
    rw [Sparse.modify_entry, List.map_cons, sorted_cons_iff]
    have hkey : (if kv.1 = key then (kv.1, f kv.2) else kv).1 = kv.1 := by
      by_cases h : kv.1 = key <;> simp [h]
    refine ⟨fun kv2 h2 => ?_, ih hst⟩
    rw [hkey]
    rcases mem_modify_entry key f t kv2 h2 with h | ⟨v, hv, he⟩
    · exact hlt kv2 h
    · rw [he]
      exact hlt (key, v) hv

/-! ### Sparse backend: single-bit operations -/

theorem sparse_set_test (s : Nat) (hs : 0 < s) (m : List (Nat × Nat))
    (bit : Nat) (hm : Sparse.sorted_keys m = true) :
    Sparse.bit_test s (Sparse.bit_set s m bit) bit = true := by
  have hbs : bit % s < 8 * s := by have := Nat.mod_lt bit hs; omega
  rw [sparse_test_eq hs, Sparse.bit_set, Sparse.getD,
    find?_update_entry_self _ _ m hm, Option.getD_some,
    sparse_word_set s _ _ hbs, shiftLeft_one, Nat.testBit_lor,
    Nat.testBit_two_pow]
  simp

theorem sparse_reset_test (s : Nat) (hs : 0 < s) (m : List (Nat × Nat))
    (bit : Nat) :
    Sparse.bit_test s (Sparse.bit_reset s m bit) bit = false := by
  have hbs : bit % s < 8 * s := by have := Nat.mod_lt bit hs; omega
  rw [sparse_test_eq hs, Sparse.bit_reset, Sparse.getD,
    find?_modify_self _ _ m]
  rcases h : Sparse.find? m (bit / s) with _ | v
  · rw [Option.map_none', Option.getD_none, Nat.zero_testBit]
  · rw [Option.map_some', Option.getD_some, sparse_word_reset s _ _ hbs,
      shiftLeft_one, Nat.testBit_land, testBit_notW (by omega),
      Nat.testBit_two_pow]
    simp

theorem sparse_flip_flip_test (s : Nat) (hs : 0 < s) (m : List (Nat × Nat))
    (bit : Nat) (hm : Sparse.sorted_keys m = true) (j : Nat) :
    Sparse.bit_test s (Sparse.bit_flip s (Sparse.bit_flip s m bit) bit) j =
      Sparse.bit_test s m j := by
  have hbs : bit % s < 8 * s := by have := Nat.mod_lt bit hs; omega
  rw [sparse_test_eq hs, sparse_test_eq hs]
  by_cases hk : j / s = bit / s
  · rw [Sparse.bit_flip, Sparse.bit_flip, Sparse.getD, hk,
      find?_update_entry_self _ _ _ (sorted_update_entry _ _ m hm),
      Option.getD_some, sparse_word_flip s _ _ hbs, Sparse.getD,
      find?_update_entry_self _ _ m hm, Option.getD_some,
      sparse_word_flip s _ _ hbs, Nat.xor_assoc, Nat.xor_self, Nat.xor_zero]
  · rw [Sparse.bit_flip, Sparse.bit_flip, Sparse.getD,
      find?_update_entry_ne _ _ _ hk, find?_update_entry_ne _ _ _ hk,
      Sparse.getD]

/-! ### Sparse backend: union and symmetric difference -/

theorem sparse_or_fold (m other : List (Nat × Nat)) :
    Sparse.bit_or m other =
      other.foldl (fun acc kv =>
        Sparse.update_entry acc kv.1 fun v => v ||| kv.2) m := by
  simp only [Sparse.bit_or, sparse_word_or]

theorem sparse_xor_eq_or (m other : List (Nat × Nat)) :
    Sparse.bit_xor m other = Sparse.bit_or m other := rfl

theorem or_fold_sorted :
    ∀ (other m : List (Nat × Nat)), Sparse.sorted_keys m = true →
      Sparse.sorted_keys (other.foldl (fun acc kv =>
        Sparse.update_entry acc kv.1 fun v => v ||| kv.2) m) = true := by
  intro other
  induction other with
  | nil => intro m hm; exact hm
  | cons kv t ih =>
    intro m hm
    exact ih _ (sorted_update_entry _ _ m hm)

theorem or_fold_find :
    ∀ (other m : List (Nat × Nat)), Sparse.sorted_keys m = true →
      Sparse.sorted_keys other = true →
      (∀ k r, Sparse.find? other k = some r →
        Sparse.find? (other.foldl (fun acc kv =>
          Sparse.update_entry acc kv.1 fun v => v ||| kv.2) m) k =
          some (Sparse.getD m k ||| r)) ∧
      (∀ k, Sparse.find? other k = none →
        Sparse.find? (other.foldl (fun acc kv =>
          Sparse.update_entry acc kv.1 fun v => v ||| kv.2) m) k =
          Sparse.find? m k) := by
  intro other
  induction other with
  | nil =>
    intro m hm _
    refine ⟨fun k r hr => ?_, fun k _ => rfl⟩
    rw [Sparse.find?] at hr
    cases hr
  | cons kv t ih =>
    intro m hm ho
    rcases sorted_cons_iff kv t |>.mp ho with ⟨hlt, hot⟩
    have hm2 : Sparse.sorted_keys
        (Sparse.update_entry m kv.1 fun v => v ||| kv.2) = true :=
      sorted_update_entry _ _ m hm
    rcases ih (Sparse.update_entry m kv.1 fun v => v ||| kv.2) hm2 hot
      with ⟨ih1, ih2⟩
    constructor
    · intro k r hr
      rw [Sparse.find?] at hr
      by_cases hk : k = kv.1
      · rw [if_pos hk] at hr
        injection hr with hr2
        have hnone : Sparse.find? t k = none := by
          rw [hk]; exact find?_eq_none_of_lt t fun kv2 h2 => hlt kv2 h2
        rw [List.foldl_cons, ih2 k hnone, hk,
          find?_update_entry_self _ _ m hm, hr2]
      · rw [if_neg hk] at hr
        rw [List.foldl_cons, ih1 k r hr, Sparse.getD,
          find?_update_entry_ne _ _ _ hk, ← Sparse.getD]
    · intro k hr
      rw [Sparse.find?] at hr
      by_cases hk : k = kv.1
      · rw [if_pos hk] at hr; cases hr
      · rw [if_neg hk] at hr
        rw [List.foldl_cons, ih2 k hr, find?_update_entry_ne _ _ _ hk]

theorem sparse_or_find_present (m other : List (Nat × Nat))
    (hm : Sparse.sorted_keys m = true) (ho : Sparse.sorted_keys other = true)
    (k r : Nat) (hr : Sparse.find? other k = some r) :
    Sparse.find? (Sparse.bit_or m other) k =
      some (Sparse.getD m k ||| r) := by
  rw [sparse_or_fold]
  exact (or_fold_find other m hm ho).1 k r hr

theorem sparse_or_find_absent (m other : List (Nat × Nat))
    (hm : Sparse.sorted_keys m = true) (ho : Sparse.sorted_keys other = true)
    (k : Nat) (hr : Sparse.find? other k = none) :
    Sparse.find? (Sparse.bit_or m other) k = Sparse.find? m k := by
  rw [sparse_or_fold]
  exact (or_fold_find other m hm ho).2 k hr

theorem find?_mem :
    ∀ (m : List (Nat × Nat)) (k v : Nat), Sparse.find? m k = some v →
      (k, v) ∈ m := by
  intro m
  induction m with
  | nil => intro k v h; cases h
  | cons kv t ih =>
    intro k v h
    rw [Sparse.find?] at h
    by_cases h2 : k = kv.1
    · rw [if_pos h2] at h
      injection h with hf2
      refine List.mem_cons.mpr (Or.inl ?_)
      rw [h2, ← hf2]
    · rw [if_neg h2] at h
      exact List.mem_cons.mpr (Or.inr (ih k v h))

/-! ### Sparse backend: the reachable-state invariant -/

theorem lt_two_pow_of_testBit_lt (v s : Nat)
    (h : ∀ j, v.testBit j = true → j < s) : v < 2 ^ s := by
  rw [← Nat.div_eq_zero_iff (Nat.two_pow_pos s)]
  refine Nat.zero_of_testBit_eq_false fun i => ?_
  rcases hb : (v / 2 ^ s).testBit i with _ | _
  · rfl
  · exfalso
    rw [← Nat.shiftRight_eq_div_pow, Nat.testBit_shiftRight] at hb
    have := h (s + i) hb
    omega

theorem sparse_inv_update (s : Nat) (m : List (Nat × Nat)) (k : Nat)
    (f : Nat → Nat) (hm : Sparse.sparse_inv s m)
    (hf : ∀ v j, (f v).testBit j = true →
      v.testBit j = true ∨ (j < s ∧ k * s + j < 2 ^ 64 - 1)) :
    Sparse.sparse_inv s (Sparse.update_entry m k f) := by
  rcases hm with ⟨hsort, hent⟩
  refine ⟨sorted_update_entry k f m hsort, fun kv hkv => ?_⟩
  rcases mem_update_entry k f m kv hkv with h | ⟨hk1, h⟩
  · exact hent kv h
  · intro j hj
    rcases h with h | ⟨v, hvm, h⟩
    · rw [h] at hj
      rcases hf 0 j hj with h2 | h2
      · rw [Nat.zero_testBit] at h2; cases h2
      · rw [hk1]; exact h2
    · rw [h] at hj
      rcases hf v j hj with h2 | h2
      · have := hent (k, v) hvm j h2
        rw [hk1]; exact this
      · rw [hk1]; exact h2

theorem sparse_inv_modify (s : Nat) (m : List (Nat × Nat)) (k : Nat)
    (f : Nat → Nat) (hm : Sparse.sparse_inv s m)
    (hf : ∀ v j, (f v).testBit j = true → v.testBit j = true) :
    Sparse.sparse_inv s (Sparse.modify_entry m k f) := by
  rcases hm with ⟨hsort, hent⟩
  refine ⟨sorted_modify_entry k f m hsort, fun kv hkv => ?_⟩
  rcases mem_modify_entry k f m kv hkv with h | ⟨v, hvm, h⟩
  · exact hent kv h
  · intro j hj
    rw [h] at hj
    exact h ▸ hent (k, v) hvm j (hf v j hj)

theorem sparse_inv_set (s : Nat) (hs : 0 < s) (m : List (Nat × Nat))
    (bit : Nat) (hbit : bit < 2 ^ 64 - 1) (hm : Sparse.sparse_inv s m) :
    Sparse.sparse_inv s (Sparse.bit_set s m bit) := by
  have hbs : bit % s < 8 * s := by have := Nat.mod_lt bit hs; omega
  rw [Sparse.bit_set]
  refine sparse_inv_update s m (bit / s) _ hm fun v j hj => ?_
  rw [sparse_word_set s v (bit % s) hbs, shiftLeft_one, Nat.testBit_lor]
    at hj
  rcases Bool.or_eq_true_iff.mp hj with h | h
  · exact Or.inl h
  · rw [Nat.testBit_two_pow] at h
    have hjb : bit % s = j := by simpa using h
    right
    subst hjb
    have : bit / s * s + bit % s = bit := by
      rw [Nat.mul_comm]; exact Nat.div_add_mod bit s
    exact ⟨Nat.mod_lt bit hs, by omega⟩

theorem sparse_inv_flip (s : Nat) (hs : 0 < s) (m : List (Nat × Nat))
    (bit : Nat) (hbit : bit < 2 ^ 64 - 1) (hm : Sparse.sparse_inv s m) :
    Sparse.sparse_inv s (Sparse.bit_flip s m bit) := by
  have hbs : bit % s < 8 * s := by have := Nat.mod_lt bit hs; omega
  rw [Sparse.bit_flip]
  refine sparse_inv_update s m (bit / s) _ hm fun v j hj => ?_
  rw [sparse_word_flip s v (bit % s) hbs, shiftLeft_one, Nat.testBit_xor]
    at hj
  rcases hv : v.testBit j with _ | _
  · rw [hv] at hj
    simp only [Bool.false_xor] at hj
    rw [Nat.testBit_two_pow] at hj
    have hjb : bit % s = j := by simpa using hj
    right
    subst hjb
    have : bit / s * s + bit % s = bit := by
      rw [Nat.mul_comm]; exact Nat.div_add_mod bit s
    exact ⟨Nat.mod_lt bit hs, by omega⟩
  · exact Or.inl rfl

theorem sparse_inv_reset (s : Nat) (hs : 0 < s) (m : List (Nat × Nat))
    (bit : Nat) (hm : Sparse.sparse_inv s m) :
    Sparse.sparse_inv s (Sparse.bit_reset s m bit) := by
  have hbs : bit % s < 8 * s := by have := Nat.mod_lt bit hs; omega
  rw [Sparse.bit_reset]
  refine sparse_inv_modify s m (bit / s) _ hm fun v j hj => ?_
  rw [sparse_word_reset s v (bit % s) hbs, Nat.testBit_land] at hj
  exact (Bool.and_eq_true_iff.mp hj).1

theorem sparse_inv_cond (s : Nat) (hs : 0 < s) (m : List (Nat × Nat))
    (bit : Nat) (value : Bool) (hbit : bit < 2 ^ 64 - 1)
    (hm : Sparse.sparse_inv s m) :
    Sparse.sparse_inv s (Sparse.bit_cond s m bit value) := by
  rw [Sparse.bit_cond]
  rcases value with _ | _
  · exact sparse_inv_reset s hs m bit hm
  · exact sparse_inv_set s hs m bit hbit hm

theorem sparse_inv_or (s : Nat) :
    ∀ (other m : List (Nat × Nat)), Sparse.sparse_inv s m → Sparse.sparse_inv s other →
      Sparse.sparse_inv s (Sparse.bit_or m other) := by
  intro other
  induction other with
  | nil => intro m hm _; rw [sparse_or_fold]; exact hm
  | cons kv t ih =>
    intro m hm ho
    rcases ho with ⟨hosort, hoent⟩
    rcases sorted_cons_iff kv t |>.mp hosort with ⟨hlt, hot⟩
    rw [sparse_or_fold, List.foldl_cons]
    have hstep : Sparse.sparse_inv s (Sparse.update_entry m kv.1
        fun v => v ||| kv.2) := by
      refine sparse_inv_update s m kv.1 _ hm fun v j hj => ?_
      rw [Nat.testBit_lor] at hj
      rcases Bool.or_eq_true_iff.mp hj with h | h
      · exact Or.inl h
      · exact Or.inr (hoent kv (by simp) j h)
    have := ih (Sparse.update_entry m kv.1 fun v => v ||| kv.2) hstep
      ⟨hot, fun kv2 h2 => hoent kv2 (by simp [h2])⟩
    rwa [sparse_or_fold] at this

theorem sparse_inv_xor (s : Nat) (other m : List (Nat × Nat))
    (hm : Sparse.sparse_inv s m) (ho : Sparse.sparse_inv s other) :
    Sparse.sparse_inv s (Sparse.bit_xor m other) := by
  rw [sparse_xor_eq_or]
  exact sparse_inv_or s other m hm ho

theorem sparse_inv_and (s : Nat) :
    ∀ (other m : List (Nat × Nat)), Sparse.sparse_inv s m →
      Sparse.sparse_inv s (Sparse.bit_and m other) := by
  intro other
  induction other with
  | nil => intro m hm; exact hm
  | cons kv t ih =>
    intro m hm
    rw [Sparse.bit_and, List.foldl_cons]
    rw [show (List.foldl (fun acc kv =>
        Sparse.modify_entry acc kv.1 fun v =>
          ((Slice.bit_and [v] [kv.2]).getD []).getD 0 0) _ t) =
      Sparse.bit_and (Sparse.modify_entry m kv.1 fun v =>
          ((Slice.bit_and [v] [kv.2]).getD []).getD 0 0) t from rfl]
    refine ih _ (sparse_inv_modify s m kv.1 _ hm fun v j hj => ?_)
    rw [sparse_word_and, Nat.testBit_land] at hj
    exact (Bool.and_eq_true_iff.mp hj).1

theorem sparse_inv_andnot (s : Nat) :
    ∀ (other m : List (Nat × Nat)), Sparse.sparse_inv s m →
      Sparse.sparse_inv s (Sparse.bit_andnot s m other) := by
  intro other
  induction other with
  | nil => intro m hm; exact hm
  | cons kv t ih =>
    intro m hm
    rw [Sparse.bit_andnot, List.foldl_cons]
    rw [show (List.foldl (fun acc kv =>
        Sparse.modify_entry acc kv.1 fun v =>
          ((Slice.bit_andnot (8 * s) [v] [kv.2]).getD []).getD 0 0) _ t) =
      Sparse.bit_andnot s (Sparse.modify_entry m kv.1 fun v =>
          ((Slice.bit_andnot (8 * s) [v] [kv.2]).getD []).getD 0 0) t
        from rfl]
    refine ih _ (sparse_inv_modify s m kv.1 _ hm fun v j hj => ?_)
    rw [sparse_word_andnot, Nat.testBit_land] at hj
    exact (Bool.and_eq_true_iff.mp hj).1

theorem sparse_inv_mask (s : Nat) (other : List (Nat × Nat))
    (hother : Sparse.sparse_inv s other) :
    ∀ (mk m : List (Nat × Nat)), Sparse.sparse_inv s m →
      Sparse.sparse_inv s (Sparse.bit_mask s m other mk) := by
  intro mk
  induction mk with
  | nil => intro m hm; exact hm
  | cons kv t ih =>
    intro m hm
    rw [Sparse.bit_mask, List.foldl_cons]
    rw [show (List.foldl (fun acc kv =>
        Sparse.update_entry acc kv.1 fun v =>
          ((Slice.bit_mask (8 * s) [v] [Sparse.getD other kv.1]
            [kv.2]).getD []).getD 0 0) _ t) =
      Sparse.bit_mask s (Sparse.update_entry m kv.1 fun v =>
          ((Slice.bit_mask (8 * s) [v] [Sparse.getD other kv.1]
            [kv.2]).getD []).getD 0 0) other t from rfl]
    refine ih _ (sparse_inv_update s m kv.1 _ hm fun v j hj => ?_)
    rw [sparse_word_mask, Nat.testBit_lor, Nat.testBit_land,
      Nat.testBit_land] at hj
    rcases Bool.or_eq_true_iff.mp hj with h | h
    · exact Or.inl (Bool.and_eq_true_iff.mp h).1
    · have hr : (Sparse.getD other kv.1).testBit j = true :=
        (Bool.and_eq_true_iff.mp h).1
      rcases hfind : Sparse.find? other kv.1 with _ | r
      · rw [Sparse.getD, hfind, Option.getD_none, Nat.zero_testBit] at hr
        cases hr
      · rw [Sparse.getD, hfind, Option.getD_some] at hr
        exact Or.inr (hother.2 (kv.1, r)
          (find?_mem other kv.1 r hfind) j hr)

theorem sparse_inv_empty (s : Nat) : Sparse.sparse_inv s [] :=
  ⟨rfl, fun kv hkv => by cases hkv⟩

theorem reachable_inv {s : Nat} (hs : 0 < s) :
    ∀ {m : List (Nat × Nat)}, Sparse.Reachable s m → Sparse.sparse_inv s m := by
  intro m h
  induction h with
  | empty => exact sparse_inv_empty s
  | set _ hbit ih => exact sparse_inv_set s hs _ _ hbit ih
  | reset _ _ ih => exact sparse_inv_reset s hs _ _ ih
  | flip _ hbit ih => exact sparse_inv_flip s hs _ _ hbit ih
  | cond _ hbit ih => exact sparse_inv_cond s hs _ _ _ hbit ih
  | union _ _ ih1 ih2 => exact sparse_inv_or s _ _ ih1 ih2
  | inter _ _ ih1 _ => exact sparse_inv_and s _ _ ih1
  | diff _ _ ih1 _ => exact sparse_inv_andnot s _ _ ih1
  | symmdiff _ _ ih1 ih2 => exact sparse_inv_xor s _ _ ih1 ih2
  | mask _ _ _ ih1 ih2 ih3 => exact sparse_inv_mask s _ ih2 _ _ ih1

/-! ### Sparse backend: population count -/

theorem countP_ite (c q1 q2 : Nat → Bool) :
    ∀ (l : List Nat),
      l.countP (fun i => cond (c i) (q1 i) (q2 i)) =
        l.countP (fun i => c i && q1 i) +
          l.countP (fun i => !c i && q2 i) := by
  intro l
  induction l with
  | nil => rfl
  | cons a t ih =>
    rw [List.countP_cons, List.countP_cons, List.countP_cons, ih]
    rcases c a with _ | _ <;> rcases q1 a with _ | _ <;>
      rcases q2 a with _ | _ <;> simp <;> omega

theorem sparse_test_cons {s : Nat} (hs : 0 < s) (k v : Nat)
    (t : List (Nat × Nat)) (bit : Nat) :
    Sparse.bit_test s ((k, v) :: t) bit =
      cond (decide (bit / s = k)) (v.testBit (bit % s))
        (Sparse.bit_test s t bit) := by
  rw [sparse_test_eq hs, Sparse.getD, Sparse.find?]
  by_cases h : bit / s = k
  · rw [if_pos h]
    simp [h]
  · rw [if_neg h]
    have hd : decide (bit / s = k) = false := by simp [h]
    rw [hd, cond_false, sparse_test_eq hs, Sparse.getD]

theorem countP_testBit_prefix (v r s : Nat) (hrs : r ≤ s)
    (hhi : ∀ j, v.testBit j = true → j < r) :
    (List.range s).countP v.testBit = (List.range r).countP v.testBit := by
  have hsr : s = r + (s - r) := by omega
  rw [hsr, countP_range_add]
  have hz : (List.range (s - r)).countP (fun j => v.testBit (r + j)) = 0 := by
    refine List.countP_eq_zero.mpr fun j _ => ?_
    rcases hb : v.testBit (r + j) with _ | _
    · simp
    · have := hhi _ hb
      omega
  rw [hz]
  omega

theorem countP_block (s N k v : Nat) (hs : 0 < s)
    (hinv : ∀ j, v.testBit j = true → j < s ∧ k * s + j < N) :
    (List.range N).countP
        (fun i => decide (i / s = k) && v.testBit (i % s)) =
      count_ones v := by
  have hv : v < 2 ^ s := lt_two_pow_of_testBit_lt v s fun j hj => (hinv j hj).1
  have hlow : ∀ (M : Nat), M ≤ k * s → (List.range M).countP
      (fun i => decide (i / s = k) && v.testBit (i % s)) = 0 := by
    intro M hM
    refine List.countP_eq_zero.mpr fun i hi => ?_
    rw [List.mem_range] at hi
    have : i / s < k := div_lt_len hs (by omega)
    simp [Nat.ne_of_lt this]
  by_cases hA : k * s + s ≤ N
  · have hsplit : N = k * s + (s + (N - k * s - s)) := by omega
    rw [hsplit, countP_range_add, countP_range_add, hlow (k * s) (by omega)]
    have hmid : (List.range s).countP
        (fun j => decide ((k * s + j) / s = k) &&
          v.testBit ((k * s + j) % s)) =
        (List.range s).countP v.testBit := by
      refine List.countP_congr fun j hj => ?_
      rw [List.mem_range] at hj
      rw [block_div k j hj, block_mod k j hj]
      simp
    have hhigh : (List.range (N - k * s - s)).countP
        (fun j => decide ((k * s + (s + j)) / s = k) &&
          v.testBit ((k * s + (s + j)) % s)) = 0 := by
      refine List.countP_eq_zero.mpr fun j _ => ?_
      have he : k * s + (s + j) = (k + 1) * s + j := by ring
      have hd : ((k + 1) * s + j) / s = (k + 1) + j / s := by
        rw [Nat.mul_comm (k + 1) s, Nat.mul_add_div hs]
      simp only [he, hd]
      have hb : k + 1 ≤ k + 1 + j / s := Nat.le_add_right (k + 1) (j / s)
      have hne : ¬(k + 1 + j / s = k) := fun hc => by rw [hc] at hb; omega
      simp [hne]
    rw [hmid, hhigh, count_ones_eq_countP s v hv]
    omega
  · by_cases hB : k * s ≤ N
    · have hsplit : N = k * s + (N - k * s) := by omega
      rw [hsplit, countP_range_add, hlow (k * s) (by omega)]
      have hr : N - k * s < s := by omega
      have hmid : (List.range (N - k * s)).countP
          (fun j => decide ((k * s + j) / s = k) &&
            v.testBit ((k * s + j) % s)) =
          (List.range (N - k * s)).countP v.testBit := by
        refine List.countP_congr fun j hj => ?_
        rw [List.mem_range] at hj
        rw [block_div k j (by omega), block_mod k j (by omega)]
        simp
      have hpre : (List.range s).countP v.testBit =
          (List.range (N - k * s)).countP v.testBit :=
        countP_testBit_prefix v (N - k * s) s (by omega)
          fun j hj => by have := (hinv j hj).2; omega
      rw [hmid, count_ones_eq_countP s v hv, hpre]
      omega
    · have hzero : (List.range N).countP
          (fun i => decide (i / s = k) && v.testBit (i % s)) = 0 :=
        hlow N (by omega)
      have hv0 : v = 0 := by
        refine Nat.zero_of_testBit_eq_false fun i => ?_
        rcases hb : v.testBit i with _ | _
        · rfl
        · have := (hinv i hb).2
          omega
      rw [hzero, hv0, count_ones_zero]

theorem sparse_count_eq (s : Nat) (hs : 0 < s) :
    ∀ (m : List (Nat × Nat)), Sparse.sparse_inv s m →
      Sparse.bit_count m =
        (List.range (2 ^ 64 - 1)).countP (Sparse.bit_test s m) := by
  intro m
  induction m with
  | nil =>
    intro _
    rw [show Sparse.bit_count [] = 0 from rfl]
    refine (List.countP_eq_zero.mpr fun i _ => ?_).symm
    rw [show Sparse.bit_test s [] i = false from rfl]
    simp
  | cons kv t ih =>
    intro hinv
    rcases hinv with ⟨hsort, hent⟩
    rcases sorted_cons_iff kv t |>.mp hsort with ⟨hlt, hst⟩
    have hcons : Sparse.bit_count (kv :: t) =
        count_ones kv.2 + Sparse.bit_count t := by
      rw [Sparse.bit_count, Sparse.bit_count, List.map_cons, List.sum_cons,
        sparse_word_count]
    have hsplit : (List.range (2 ^ 64 - 1)).countP
        (Sparse.bit_test s (kv :: t)) =
        (List.range (2 ^ 64 - 1)).countP
          (fun i => decide (i / s = kv.1) && kv.2.testBit (i % s)) +
        (List.range (2 ^ 64 - 1)).countP
          (fun i => !decide (i / s = kv.1) && Sparse.bit_test s t i) := by
      rw [← countP_ite]
      refine List.countP_congr fun i _ => ?_
      rw [show Sparse.bit_test s (kv :: t) i =
        Sparse.bit_test s ((kv.1, kv.2) :: t) i from rfl,
        sparse_test_cons hs kv.1 kv.2 t i]
    have htail : (List.range (2 ^ 64 - 1)).countP
        (fun i => !decide (i / s = kv.1) && Sparse.bit_test s t i) =
        (List.range (2 ^ 64 - 1)).countP (Sparse.bit_test s t) := by
      refine List.countP_congr fun i _ => ?_
      by_cases h : i / s = kv.1
      · have hnone : Sparse.find? t (i / s) = none := by
          rw [h]
          exact find?_eq_none_of_lt t fun kv2 h2 => hlt kv2 h2
        have : Sparse.bit_test s t i = false := by
          rw [sparse_test_eq hs, Sparse.getD, hnone, Option.getD_none,
            Nat.zero_testBit]
        simp [h, this]
      · simp [h]
    rw [hcons, hsplit, htail,
      countP_block s (2 ^ 64 - 1) kv.1 kv.2 hs (hent kv (by simp)),
      ih ⟨hst, fun kv2 h2 => hent kv2 (by simp [h2])⟩]

/-! ### Formatter lemmas -/

theorem hex_byte_bools : ∀ (b0 b1 b2 b3 b4 b5 b6 b7 : Bool),
    (Fmt.b2n b0 <<< 7 ||| Fmt.b2n b1 <<< 6 ||| Fmt.b2n b2 <<< 5 |||
      Fmt.b2n b3 <<< 4 ||| Fmt.b2n b4 <<< 3 ||| Fmt.b2n b5 <<< 2 |||
      Fmt.b2n b6 <<< 1 ||| Fmt.b2n b7 <<< 0) =
      (if b0 then 128 else 0) + ((if b1 then 64 else 0) +
        ((if b2 then 32 else 0) + ((if b3 then 16 else 0) +
        ((if b4 then 8 else 0) + ((if b5 then 4 else 0) +
        ((if b6 then 2 else 0) + ((if b7 then 1 else 0) + 0))))))) := by
  decide

theorem rev_byte_expand (tf : Nat → Bool) (k : Nat) :
    Fmt.rev_byte tf k =
      (if tf (8 * k + 0) then 128 else 0) + ((if tf (8 * k + 1) then 64 else 0) +
        ((if tf (8 * k + 2) then 32 else 0) + ((if tf (8 * k + 3) then 16 else 0) +
        ((if tf (8 * k + 4) then 8 else 0) + ((if tf (8 * k + 5) then 4 else 0) +
        ((if tf (8 * k + 6) then 2 else 0) +
          ((if tf (8 * k + 7) then 1 else 0) + 0))))))) := rfl

theorem hex_byte_eq_rev (tf : Nat → Bool) (k : Nat) :
    Fmt.hex_byte tf (8 * k) = Fmt.rev_byte tf k := by
  rw [Fmt.hex_byte, rev_byte_expand]
  exact hex_byte_bools (tf (8 * k + 0)) (tf (8 * k + 1)) (tf (8 * k + 2))
    (tf (8 * k + 3)) (tf (8 * k + 4)) (tf (8 * k + 5)) (tf (8 * k + 6))
    (tf (8 * k + 7))

theorem hex_chunks_eq (alphabet : List Char) (tf : Nat → Bool) :
    ∀ (n i : Nat), Fmt.hex_chunks alphabet tf n i =
      (List.range n).flatMap fun k =>
        [alphabet.getD (Fmt.hex_byte tf (i + 8 * k) / 16) '0',
         alphabet.getD (Fmt.hex_byte tf (i + 8 * k) % 16) '0'] := by
  intro n
  induction n with
  | zero => intro i; rfl
  | succ n ih =>
    intro i
    rw [Fmt.hex_chunks, ih (i + 8), List.range_succ_eq_map,
      List.flatMap_cons, List.flatMap_map]
    have harg : ∀ k : Nat, i + 8 * Nat.succ k = i + 8 + 8 * k := by
      intro k; omega
    simp only [Function.comp_def, harg, Nat.mul_zero, Nat.add_zero,
      List.cons_append, List.nil_append]

theorem hexstring_chunks (alphabet : List Char) (len : Nat) (tf : Nat → Bool)
    (h8 : len % 8 = 0) :
    Fmt.hexstring alphabet len tf =
      (List.range (len / 8)).flatMap fun k =>
        [alphabet.getD (Fmt.rev_byte tf k / 16) '0',
         alphabet.getD (Fmt.rev_byte tf k % 16) '0'] := by
  rw [Fmt.hexstring, show (len + 7) / 8 = len / 8 by omega, hex_chunks_eq]
  refine List.flatMap_congr fun k _ => ?_
  rw [show 0 + 8 * k = 8 * k by omega, hex_byte_eq_rev]

/-! ### Flat-array backend lemmas -/

theorem slice_test_eq_testBit (w : Nat) (bs : List Nat) (bit : Nat) :
    Slice.bit_test w bs bit = (bs.getD (bit / w) 0).testBit (bit % w) := by
  rw [show Slice.bit_test w bs bit =
    Uint.bit_test_usize (bs.getD (bit / w) 0) (bit % w) from rfl,
    uint_test_eq_testBit]

theorem slice_set_test (w : Nat) (bs : List Nat) (i : Nat) (hw : 0 < w)
    (hi : i < Slice.bit_len w bs) :
    Slice.bit_test w (Slice.bit_set w bs i) i = true := by
  rw [slice_test_eq_testBit, Slice.bit_set,
    getD_set_self _ _ _ _ (by simpa using div_lt_len hw hi),
    shiftLeft_one, Nat.testBit_lor, Nat.testBit_two_pow]
  simp

theorem slice_reset_test (w : Nat) (bs : List Nat) (i : Nat) (hw : 0 < w)
    (hi : i < Slice.bit_len w bs) :
    Slice.bit_test w (Slice.bit_reset w bs i) i = false := by
  rw [slice_test_eq_testBit, Slice.bit_reset,
    getD_set_self _ _ _ _ (by simpa using div_lt_len hw hi),
    shiftLeft_one, Nat.testBit_land, testBit_notW (Nat.mod_lt i hw),
    Nat.testBit_two_pow]
  simp

theorem slice_flip_flip (w : Nat) (bs : List Nat) (i : Nat) (hw : 0 < w)
    (hi : i < Slice.bit_len w bs) :
    Slice.bit_flip w (Slice.bit_flip w bs i) i = bs := by
  have hk : i / w < bs.length := by simpa using div_lt_len hw hi
  rw [Slice.bit_flip, Slice.bit_flip, getD_set_self _ _ _ _ hk,
    List.set_set, Nat.xor_assoc, Nat.xor_self, Nat.xor_zero, set_getD_self]

theorem slice_cond_test (w : Nat) (bs : List Nat) (i : Nat) (value : Bool)
    (hw : 0 < w) (hi : i < Slice.bit_len w bs) :
    Slice.bit_test w (Slice.bit_cond w bs i value) i = value := by
  rw [slice_test_eq_testBit, Slice.bit_cond,
    getD_set_self _ _ _ _ (by simpa using div_lt_len hw hi), shiftLeft_one,
    Nat.testBit_lor, Nat.testBit_land, Nat.testBit_land,
    testBit_notW (Nat.mod_lt i hw), Nat.testBit_two_pow,
    uint_init_testBit w value _ (Nat.mod_lt i hw)]
  rcases value with _ | _ <;> simp

theorem same_bit_of_eq_div_mod {w i j : Nat} (hw : 0 < w)
    (h1 : i / w = j / w) (h2 : i % w = j % w) : i = j := by
  have hi := Nat.div_add_mod i w
  have hj := Nat.div_add_mod j w
  have hc : w * (i / w) = w * (j / w) := by rw [h1]
  omega

theorem slice_set_frame (w : Nat) (bs : List Nat) (i j : Nat) (hw : 0 < w)
    (hj : j < Slice.bit_len w bs) (hne : j ≠ i) :
    Slice.bit_test w (Slice.bit_set w bs i) j = Slice.bit_test w bs j := by
  rw [slice_test_eq_testBit, slice_test_eq_testBit, Slice.bit_set]
  by_cases hd : i / w = j / w
  · rw [hd, getD_set_self _ _ _ _ (by simpa using div_lt_len hw hj),
      shiftLeft_one, Nat.testBit_lor, Nat.testBit_two_pow]
    have hm : ¬ i % w = j % w := fun hm =>
      hne (same_bit_of_eq_div_mod hw hd hm).symm
    simp [hm]
  · rw [getD_set_ne _ _ _ _ _ hd]

theorem slice_reset_frame (w : Nat) (bs : List Nat) (i j : Nat) (hw : 0 < w)
    (hj : j < Slice.bit_len w bs) (hne : j ≠ i) :
    Slice.bit_test w (Slice.bit_reset w bs i) j = Slice.bit_test w bs j := by
  rw [slice_test_eq_testBit, slice_test_eq_testBit, Slice.bit_reset]
  by_cases hd : i / w = j / w
  · rw [hd, getD_set_self _ _ _ _ (by simpa using div_lt_len hw hj),
      shiftLeft_one, Nat.testBit_land, testBit_notW (Nat.mod_lt j hw),
      Nat.testBit_two_pow]
    have hm : ¬ i % w = j % w := fun hm =>
      hne (same_bit_of_eq_div_mod hw hd hm).symm
    simp [hm]
  · rw [getD_set_ne _ _ _ _ _ hd]

theorem slice_flip_frame (w : Nat) (bs : List Nat) (i j : Nat) (hw : 0 < w)
    (hj : j < Slice.bit_len w bs) (hne : j ≠ i) :
    Slice.bit_test w (Slice.bit_flip w bs i) j = Slice.bit_test w bs j := by
  rw [slice_test_eq_testBit, slice_test_eq_testBit, Slice.bit_flip]
  by_cases hd : i / w = j / w
  · rw [hd, getD_set_self _ _ _ _ (by simpa using div_lt_len hw hj),
      shiftLeft_one, Nat.testBit_xor, Nat.testBit_two_pow]
    have hm : ¬ i % w = j % w := fun hm =>
      hne (same_bit_of_eq_div_mod hw hd hm).symm
    simp [hm]
  · rw [getD_set_ne _ _ _ _ _ hd]

theorem slice_count_eq (w : Nat) (hw : 0 < w) (bs : List Nat)
    (hbs : ∀ x ∈ bs, x < 2 ^ w) :
    Slice.bit_count bs =
      (List.range (Slice.bit_len w bs)).countP (Slice.bit_test w bs) := by
  induction bs using List.reverseRecOn with
  | nil => simp [Slice.bit_count, Slice.bit_len]
  | append_singleton xs x ih =>
    have hx : x < 2 ^ w := hbs x (by simp)
    have hxs : ∀ y ∈ xs, y < 2 ^ w := fun y hy => hbs y (by simp [hy])
    have hlen : Slice.bit_len w (xs ++ [x]) =
        Slice.bit_len w xs + w := by
      simp [Slice.bit_len, Nat.add_mul]
    have hcnt : Slice.bit_count (xs ++ [x]) =
        Slice.bit_count xs + count_ones x := by
      simp [Slice.bit_count]
    have hfirst : (List.range (Slice.bit_len w xs)).countP
        (Slice.bit_test w (xs ++ [x])) =
        (List.range (Slice.bit_len w xs)).countP (Slice.bit_test w xs) := by
      refine List.countP_congr fun i hi => ?_
      rw [List.mem_range] at hi
      rw [slice_test_eq_testBit, slice_test_eq_testBit,
        List.getD_append _ _ _ _ (div_lt_len hw hi)]
    have hsecond : (List.range w).countP
        (fun j => Slice.bit_test w (xs ++ [x]) (Slice.bit_len w xs + j)) =
        (List.range w).countP x.testBit := by
      refine List.countP_congr fun j hj => ?_
      rw [List.mem_range] at hj
      rw [slice_test_eq_testBit, Slice.bit_len, block_div xs.length j hj,
        block_mod xs.length j hj,
        List.getD_append_right _ _ _ _ (Nat.le_refl _)]
      simp [List.getD]
    rw [hcnt, hlen, countP_range_add, hfirst, hsecond,
      ih hxs, count_ones_eq_countP w x hx]

theorem slice_cond_frame (w : Nat) (bs : List Nat) (i j : Nat) (value : Bool)
    (hw : 0 < w) (hj : j < Slice.bit_len w bs) (hne : j ≠ i) :
    Slice.bit_test w (Slice.bit_cond w bs i value) j = Slice.bit_test w bs j := by
  rw [slice_test_eq_testBit, slice_test_eq_testBit, Slice.bit_cond]
  by_cases hd : i / w = j / w
  · rw [hd, getD_set_self _ _ _ _ (by simpa using div_lt_len hw hj),
      shiftLeft_one, Nat.testBit_lor, Nat.testBit_land, Nat.testBit_land,
      testBit_notW (Nat.mod_lt j hw), Nat.testBit_two_pow]
    have hm : ¬ i % w = j % w := fun hm =>
      hne (same_bit_of_eq_div_mod hw hd hm).symm
    simp [hm]
  · rw [getD_set_ne _ _ _ _ _ hd]

/-! ### Vector-shaped backend: shape preservation of single-bit updates -/

theorem blocks_set {L : Nat} {bss : List (List Nat)} (hB : Blocks L bss)
    (k : Nat) (blk : List Nat) (hblk : blk.length = L) :
    Blocks L (bss.set k blk) := fun b hb => by
  rcases List.mem_or_eq_of_mem_set hb with h | h
  · exact hB b h
  · rw [h]; exact hblk

theorem simd_blk_index_lt {w L : Nat} {bss : List (List Nat)} {bit : Nat}
    (hw : 0 < w) (hL : 0 < L) (hbit : bit < Simd.bit_len w L bss) :
    Simd.blk_index w L bit < bss.length := by
  rw [Simd.bit_len] at hbit
  rw [Simd.blk_index]
  exact div_lt_len (by rw [Simd.bits_per_word]; positivity) hbit

theorem blocks_lane_set {w L : Nat} {bss : List (List Nat)} (hw : 0 < w)
    (hL : 0 < L) (hB : Blocks L bss) (bit x : Nat)
    (hbit : bit < Simd.bit_len w L bss) :
    Blocks L (bss.set (Simd.blk_index w L bit)
      ((bss.getD (Simd.blk_index w L bit) []).set
        (Simd.lane_index w L bit) x)) := by
  refine blocks_set hB _ _ ?_
  rw [List.length_set]
  exact hB _ (getD_mem _ _ _ (simd_blk_index_lt hw hL hbit))

theorem simd_len_set {w L : Nat} (bss : List (List Nat)) (k : Nat)
    (blk : List Nat) :
    Simd.bit_len w L (bss.set k blk) = Simd.bit_len w L bss := by
  simp [Simd.bit_len]

theorem simd_flip_flip {w L : Nat} (hw : 0 < w) (hL : 0 < L)
    (bss : List (List Nat)) (hB : Blocks L bss) (i : Nat)
    (hi : i < Simd.bit_len w L bss) :
    Simd.bit_flip w L (Simd.bit_flip w L bss i) i = bss := by
  have hidx : Simd.blk_index w L i < bss.length := simd_blk_index_lt hw hL hi
  have hBlen : (bss.getD (Simd.blk_index w L i) []).length = L :=
    hB _ (getD_mem _ _ _ hidx)
  have hlane : Simd.lane_index w L i <
      (bss.getD (Simd.blk_index w L i) []).length := by
    rw [hBlen, Simd.lane_index]
    exact Nat.mod_lt _ hL
  rw [Simd.bit_flip, Simd.bit_flip, getD_set_self _ _ _ _ hidx,
    getD_set_self _ _ _ _ hlane, List.set_set, List.set_set, Nat.xor_assoc,
    Nat.xor_self, Nat.xor_zero, set_getD_self, set_getD_self]

/-! ### Claim theorems -/

/-- C1: the claim says the sparse backend resolves bit position `i` to key
`i / w` for word bit width `w` (so `u32` words would use key `i / 32`).  The
code divides by `mem::size_of::<T>()`, the size in BYTES: for `T = u32`
(`s = 4` bytes, `w = 32` bits), `bit_set(8)` stores at key `8 / 4 = 2`,
not at key `8 / 32 = 0` as the claim requires.  This theorem evaluates the
embedded code at that failing input. -/
theorem C1_sparse_key_mapping_eval :
    Sparse.bit_set 4 [] 8 = [(2, 1)] ∧
    Sparse.bit_test 4 (Sparse.bit_set 4 [] 8) 8 = true ∧
    (8 : Nat) / 32 = 0 ∧ (2 : Nat) ≠ 8 / 32 := by
  decide

/-- C2 counterexample: the claim predicts that the byte rendered for group k
is the one where `bit_test(8k + j)` has weight `2 ^ j`; for the 8-bit word
`1` (only bit 0 set) that predicts the rendering `"01"`, but `hexstring`
gives bit 0 the weight `2 ^ 7` and renders `"80"`. -/
theorem C2_hexstring_counterexample :
    Fmt.hexstring Fmt.UPPERHEX_ALPHABET 8 (Uint.bit_test_usize 1) =
      ['8', '0'] ∧
    Fmt.hexstring_spec Fmt.UPPERHEX_ALPHABET 8 (Uint.bit_test_usize 1) =
      ['0', '1'] ∧
    Fmt.hexstring Fmt.UPPERHEX_ALPHABET 8 (Uint.bit_test_usize 1) ≠
      Fmt.hexstring_spec Fmt.UPPERHEX_ALPHABET 8 (Uint.bit_test_usize 1) := by
  refine ⟨by decide, by decide, by decide⟩

/-- C2 amended: for every container whose bit length is a multiple of 8, the
hexadecimal rendering iterates 8-bit groups low-index first with no
delimiters and prints each group as exactly two hex digits, high nibble
first, where the k-th group's byte value is the one in which
`bit_test(8k + j)` contributes weight `2 ^ (7 - j)` (low bit index =
most-significant bit of the printed byte). -/
theorem C2_hexstring_amended (alphabet : List Char) (len : Nat)
    (tf : Nat → Bool) (h8 : len % 8 = 0) :
    Fmt.hexstring alphabet len tf =
      (List.range (len / 8)).flatMap fun k =>
        [alphabet.getD (Fmt.rev_byte tf k / 16) '0',
         alphabet.getD (Fmt.rev_byte tf k % 16) '0'] :=
  hexstring_chunks alphabet len tf h8

/-- C2 witness: the amended statement applied to the 8-bit word `36`
(bits 2 and 5 set). -/
theorem C2_hexstring_amended_witness :
    (8 : Nat) % 8 = 0 ∧
    Fmt.hexstring Fmt.UPPERHEX_ALPHABET 8 (Uint.bit_test_usize 36) =
      (List.range (8 / 8)).flatMap fun k =>
        [Fmt.UPPERHEX_ALPHABET.getD
          (Fmt.rev_byte (Uint.bit_test_usize 36) k / 16) '0',
         Fmt.UPPERHEX_ALPHABET.getD
          (Fmt.rev_byte (Uint.bit_test_usize 36) k % 16) '0'] :=
  ⟨by decide, C2_hexstring_amended Fmt.UPPERHEX_ALPHABET 8
    (Uint.bit_test_usize 36) (by decide)⟩

/-- C4: for the sparse backend, `bit_init(true)` and `bit_not` always panic
(embedded as `none`) leaving no defined result, while `bit_init(false)`
drops every entry of the mapping, after which every `bit_test` returns
false. -/
theorem C4_sparse_init_not (m : List (Nat × Nat)) (s i : Nat) :
    Sparse.bit_init m true = none ∧
    Sparse.bit_not m = none ∧
    Sparse.bit_init m false = some [] ∧
    Sparse.bit_test s [] i = false :=
  ⟨rfl, rfl, rfl, rfl⟩

/-- C8: an 8-bit word initialized to all-zero, after `bit_set(2)` and
`bit_set(5)`: `bit_count` is 2, `bit_test` is true exactly at 2 and 5 among
positions below 8, and the hexadecimal rendering is the string `"24"`. -/
theorem C8_scenario_u8 :
    Uint.bit_init 8 false = 0 ∧
    Uint.bit_count (Uint.bit_set_usize (Uint.bit_set_usize 0 2) 5) = 2 ∧
    Uint.bit_test_usize (Uint.bit_set_usize (Uint.bit_set_usize 0 2) 5) 2 =
      true ∧
    Uint.bit_test_usize (Uint.bit_set_usize (Uint.bit_set_usize 0 2) 5) 5 =
      true ∧
    (∀ i, i < 8 → i ≠ 2 → i ≠ 5 →
      Uint.bit_test_usize (Uint.bit_set_usize (Uint.bit_set_usize 0 2) 5) i =
        false) ∧
    Fmt.hexstring Fmt.UPPERHEX_ALPHABET (Uint.bit_len 8)
      (Uint.bit_test_usize (Uint.bit_set_usize (Uint.bit_set_usize 0 2) 5)) =
      ['2', '4'] := by
  have h36 : Uint.bit_set_usize (Uint.bit_set_usize 0 2) 5 = 36 := by decide
  have hcnt : Uint.bit_count (Uint.bit_set_usize (Uint.bit_set_usize 0 2) 5)
      = 2 := by
    rw [Uint.bit_count, h36, count_ones_eq_countP 8 36 (by decide)]
    decide
  exact ⟨rfl, hcnt, by decide, by decide, by decide, by decide⟩

/-- C9: for the sparse backend, `bit_or` and `bit_xor` both behave as the
spec describes the union: for every key present in `rhs`, the word of `rhs`
is OR-ed into self's word at that key (lazily inserting an all-zero word
when absent via the default), and keys not present in `rhs` are left
unchanged; indeed `bit_xor` performs exactly the same union. -/
theorem C9_sparse_or_xor (m other : List (Nat × Nat))
    (hm : Sparse.sorted_keys m = true) (ho : Sparse.sorted_keys other = true)
    (k r : Nat) :
    (Sparse.find? other k = some r →
      Sparse.find? (Sparse.bit_or m other) k =
        some (Sparse.getD m k ||| r) ∧
      Sparse.find? (Sparse.bit_xor m other) k =
        some (Sparse.getD m k ||| r)) ∧
    (Sparse.find? other k = none →
      Sparse.find? (Sparse.bit_or m other) k = Sparse.find? m k ∧
      Sparse.find? (Sparse.bit_xor m other) k = Sparse.find? m k) ∧
    Sparse.bit_xor m other = Sparse.bit_or m other := by
  refine ⟨fun hr => ⟨sparse_or_find_present m other hm ho k r hr, ?_⟩,
    fun hr => ⟨sparse_or_find_absent m other hm ho k hr, ?_⟩,
    sparse_xor_eq_or m other⟩
  · rw [sparse_xor_eq_or]
    exact sparse_or_find_present m other hm ho k r hr
  · rw [sparse_xor_eq_or]
    exact sparse_or_find_absent m other hm ho k hr

/-- C9 witness: the union characterization applied to the concrete maps
`{0 ↦ 1}` and `{0 ↦ 2, 5 ↦ 7}`. -/
theorem C9_sparse_or_xor_witness :
    (Sparse.find? [(0, 2), (5, 7)] 0 = some 2 →
      Sparse.find? (Sparse.bit_or [(0, 1)] [(0, 2), (5, 7)]) 0 =
        some (Sparse.getD [(0, 1)] 0 ||| 2) ∧
      Sparse.find? (Sparse.bit_xor [(0, 1)] [(0, 2), (5, 7)]) 0 =
        some (Sparse.getD [(0, 1)] 0 ||| 2)) ∧
    (Sparse.find? [(0, 2), (5, 7)] 0 = none →
      Sparse.find? (Sparse.bit_or [(0, 1)] [(0, 2), (5, 7)]) 0 =
        Sparse.find? [(0, 1)] 0 ∧
      Sparse.find? (Sparse.bit_xor [(0, 1)] [(0, 2), (5, 7)]) 0 =
        Sparse.find? [(0, 1)] 0) ∧
    Sparse.bit_xor [(0, 1)] [(0, 2), (5, 7)] =
      Sparse.bit_or [(0, 1)] [(0, 2), (5, 7)] :=
  C9_sparse_or_xor [(0, 1)] [(0, 2), (5, 7)] (by decide) (by decide) 0 2

/-- C3: every binary set-algebra operation of the flat-array backend applied
to slices of unequal element count fails fast (panics, embedded as `none`)
with no result, and `bit_mask` fails unless all three operands have equal
length; when the lengths are equal the word-level operation is applied
element-wise to every element. -/
theorem C3_slice_length_contract (w : Nat) (a b c : List Nat) :
    (a.length ≠ b.length →
      Slice.bit_eq a b = none ∧ Slice.bit_disjoint a b = none ∧
      Slice.bit_subset a b = none ∧ Slice.bit_or a b = none ∧
      Slice.bit_and a b = none ∧ Slice.bit_andnot w a b = none ∧
      Slice.bit_xor a b = none) ∧
    (¬(a.length = b.length ∧ a.length = c.length) →
      Slice.bit_mask w a b c = none) ∧
    (a.length = b.length →
      ((Slice.bit_eq a b).getD false = true ↔
        ∀ k, k < a.length → a.getD k 0 = b.getD k 0) ∧
      ((Slice.bit_disjoint a b).getD false = true ↔
        ∀ k, k < a.length → a.getD k 0 &&& b.getD k 0 = 0) ∧
      ((Slice.bit_subset a b).getD false = true ↔
        ∀ k, k < a.length → a.getD k 0 ||| b.getD k 0 = b.getD k 0) ∧
      (((Slice.bit_or a b).getD []).length = a.length ∧
        ∀ k, k < a.length →
          ((Slice.bit_or a b).getD []).getD k 0 =
            a.getD k 0 ||| b.getD k 0) ∧
      (((Slice.bit_and a b).getD []).length = a.length ∧
        ∀ k, k < a.length →
          ((Slice.bit_and a b).getD []).getD k 0 =
            a.getD k 0 &&& b.getD k 0) ∧
      (((Slice.bit_andnot w a b).getD []).length = a.length ∧
        ∀ k, k < a.length →
          ((Slice.bit_andnot w a b).getD []).getD k 0 =
            a.getD k 0 &&& notW w (b.getD k 0)) ∧
      (((Slice.bit_xor a b).getD []).length = a.length ∧
        ∀ k, k < a.length →
          ((Slice.bit_xor a b).getD []).getD k 0 =
            a.getD k 0 ^^^ b.getD k 0)) ∧
    (a.length = b.length → a.length = c.length →
      ((Slice.bit_mask w a b c).getD []).length = a.length ∧
      ∀ k, k < a.length → ((Slice.bit_mask w a b c).getD []).getD k 0 =
        (a.getD k 0 &&& notW w (c.getD k 0) ||| b.getD k 0 &&& c.getD k 0)) := by
  refine ⟨fun h => ?_, fun h => ?_, fun h => ?_, fun h1 h2 => ?_⟩
  · exact ⟨by rw [Slice.bit_eq, if_neg h],
      by rw [Slice.bit_disjoint, if_neg h],
      by rw [Slice.bit_subset, if_neg h], by rw [Slice.bit_or, if_neg h],
      by rw [Slice.bit_and, if_neg h], by rw [Slice.bit_andnot, if_neg h],
      by rw [Slice.bit_xor, if_neg h]⟩
  · rw [Slice.bit_mask, if_neg h]
  · refine ⟨?_, ?_, ?_, ?_, ?_, ?_, ?_⟩
    · rw [Slice.bit_eq, if_pos h, Option.getD_some]
      exact (zip_all_iff (fun x y => x == y) 0 a b h).trans
        (forall_congr' fun k => imp_congr_right fun _ => beq_iff_eq)
    · rw [Slice.bit_disjoint, if_pos h, Option.getD_some]
      exact (zip_all_iff (fun x y => x &&& y == 0) 0 a b h).trans
        (forall_congr' fun k => imp_congr_right fun _ => beq_iff_eq)
    · rw [Slice.bit_subset, if_pos h, Option.getD_some]
      exact (zip_all_iff (fun x y => x ||| y == y) 0 a b h).trans
        (forall_congr' fun k => imp_congr_right fun _ => beq_iff_eq)
    · rw [Slice.bit_or, if_pos h, Option.getD_some]
      exact ⟨by simp [h], fun k hk => getD_zipWith _ a b k 0 h hk⟩
    · rw [Slice.bit_and, if_pos h, Option.getD_some]
      exact ⟨by simp [h], fun k hk => getD_zipWith _ a b k 0 h hk⟩
    · rw [Slice.bit_andnot, if_pos h, Option.getD_some]
      exact ⟨by simp [h], fun k hk => getD_zipWith _ a b k 0 h hk⟩
    · rw [Slice.bit_xor, if_pos h, Option.getD_some]
      exact ⟨by simp [h], fun k hk => getD_zipWith _ a b k 0 h hk⟩
  · rw [Slice.bit_mask, if_pos ⟨h1, h2⟩, Option.getD_some]
    exact ⟨mask_words_length w a b c h1 h2,
      fun k hk => mask_words_getD w a b c k h1 h2 hk⟩

/-- C3 witness: `bit_or` on slices of unequal length is the panic, and on
equal-length slices the first result element is the element-wise OR. -/
theorem C3_slice_length_contract_witness :
    Slice.bit_or [1, 2] [3, 4, 5] = none ∧
    ((Slice.bit_or [1, 2] [3, 4]).getD []).getD 0 0 =
      [1, 2].getD 0 0 ||| [3, 4].getD 0 0 :=
  ⟨((C3_slice_length_contract 8 [1, 2] [3, 4, 5] []).1
      (by decide)).2.2.2.1,
    (((C3_slice_length_contract 8 [1, 2] [3, 4] []).2.2.1
      rfl).2.2.2.1).2 0 (by decide)⟩

/-- C6 counterexample: on the sparse backend (modelled over `u8`, byte count
1), flipping bit 0 twice on the empty map does not return the container to
exactly its original state: a zero word stays allocated at key 0, as the
crate's own doc comment ("Bits which were once set and then reset will
remain allocated") records. -/
theorem C6_counterexample_sparse_flip :
    Sparse.bit_flip 1 (Sparse.bit_flip 1 [] 0) 0 = [(0, 0)] ∧
    ([((0 : Nat), (0 : Nat))] : List (Nat × Nat)) ≠ [] := by
  refine ⟨by decide, by decide⟩

/-- C6 amended: for every bit position below the bit length, `bit_set` then
`bit_test` is true and `bit_reset` then `bit_test` is false on every
backend; `bit_flip` twice returns the word, flat-array and vector-shaped
containers to exactly their original state, while on the sparse backend it
returns every `bit_test` value to its original state (a zero word may
remain allocated). -/
theorem C6_amended_set_reset_flip (w L s : Nat) (hw : 0 < w) (hL : 0 < L)
    (hs : 0 < s) (v : Nat) (bs : List Nat) (bss : List (List Nat))
    (hB : Blocks L bss) (m : List (Nat × Nat))
    (hm : Sparse.sorted_keys m = true) (i : Nat)
    (hiw : i < Uint.bit_len w) (hib : i < Slice.bit_len w bs)
    (his : i < Simd.bit_len w L bss) :
    Uint.bit_test_usize (Uint.bit_set_usize v i) i = true ∧
    Uint.bit_test_usize (Uint.bit_reset_usize w v i) i = false ∧
    Uint.bit_flip_usize (Uint.bit_flip_usize v i) i = v ∧
    Slice.bit_test w (Slice.bit_set w bs i) i = true ∧
    Slice.bit_test w (Slice.bit_reset w bs i) i = false ∧
    Slice.bit_flip w (Slice.bit_flip w bs i) i = bs ∧
    Simd.bit_test w L (Simd.bit_set w L bss i) i = true ∧
    Simd.bit_test w L (Simd.bit_reset w L bss i) i = false ∧
    Simd.bit_flip w L (Simd.bit_flip w L bss i) i = bss ∧
    Sparse.bit_test s (Sparse.bit_set s m i) i = true ∧
    Sparse.bit_test s (Sparse.bit_reset s m i) i = false ∧
    (∀ j, Sparse.bit_test s
      (Sparse.bit_flip s (Sparse.bit_flip s m i) i) j =
      Sparse.bit_test s m j) := by
  have hBset : Blocks L (Simd.bit_set w L bss i) := by
    rw [Simd.bit_set]; exact blocks_lane_set hw hL hB i _ his
  have hBreset : Blocks L (Simd.bit_reset w L bss i) := by
    rw [Simd.bit_reset]; exact blocks_lane_set hw hL hB i _ his
  have hlset : Simd.bit_len w L (Simd.bit_set w L bss i) =
      Simd.bit_len w L bss := by
    rw [Simd.bit_set]; exact simd_len_set bss _ _
  have hlreset : Simd.bit_len w L (Simd.bit_reset w L bss i) =
      Simd.bit_len w L bss := by
    rw [Simd.bit_reset]; exact simd_len_set bss _ _
  have hfb : i < Slice.bit_len w bss.flatten := by
    rw [← simd_len_eq_flatten hB]; exact his
  refine ⟨?_, ?_, uint_flip_flip v i,
    slice_set_test w bs i hw hib, slice_reset_test w bs i hw hib,
    slice_flip_flip w bs i hw hib, ?_, ?_,
    simd_flip_flip hw hL bss hB i his,
    sparse_set_test s hs m i hm, sparse_reset_test s hs m i,
    fun j => sparse_flip_flip_test s hs m i hm j⟩
  · rw [uint_test_eq_testBit, uint_set_testBit]
    simp
  · rw [uint_test_eq_testBit, @uint_reset_testBit w v i i hiw]
    simp
  · rw [simd_test_eq_flatten hw hL _ i hBset (by rw [hlset]; exact his),
      simd_set_eq_flatten hw hL bss i hB his]
    exact slice_set_test w bss.flatten i hw hfb
  · rw [simd_test_eq_flatten hw hL _ i hBreset (by rw [hlreset]; exact his),
      simd_reset_eq_flatten hw hL bss i hB his]
    exact slice_reset_test w bss.flatten i hw hfb

/-- C6 witness: the amended statement at concrete containers of every
backend and bit position 3. -/
theorem C6_amended_witness :
    Uint.bit_test_usize (Uint.bit_set_usize 5 3) 3 = true ∧
    Uint.bit_test_usize (Uint.bit_reset_usize 8 5 3) 3 = false ∧
    Uint.bit_flip_usize (Uint.bit_flip_usize 5 3) 3 = 5 ∧
    Slice.bit_test 8 (Slice.bit_set 8 [1, 2] 3) 3 = true ∧
    Slice.bit_test 8 (Slice.bit_reset 8 [1, 2] 3) 3 = false ∧
    Slice.bit_flip 8 (Slice.bit_flip 8 [1, 2] 3) 3 = [1, 2] ∧
    Simd.bit_test 8 2 (Simd.bit_set 8 2 [[1, 2]] 3) 3 = true ∧
    Simd.bit_test 8 2 (Simd.bit_reset 8 2 [[1, 2]] 3) 3 = false ∧
    Simd.bit_flip 8 2 (Simd.bit_flip 8 2 [[1, 2]] 3) 3 = [[1, 2]] ∧
    Sparse.bit_test 1 (Sparse.bit_set 1 [(0, 3)] 3) 3 = true ∧
    Sparse.bit_test 1 (Sparse.bit_reset 1 [(0, 3)] 3) 3 = false ∧
    (∀ j, Sparse.bit_test 1
      (Sparse.bit_flip 1 (Sparse.bit_flip 1 [(0, 3)] 3) 3) j =
      Sparse.bit_test 1 [(0, 3)] j) :=
  C6_amended_set_reset_flip 8 2 1 (by decide) (by decide) (by decide) 5
    [1, 2] [[1, 2]] (by unfold Blocks; decide) [(0, 3)] (by decide) 3
    (by decide) (by decide) (by decide)

/-- C10: for the word, flat-array and vector-shaped backends, the
single-bit mutations are local: for bit positions `i` and `j` below the bit
length with `j ≠ i`, each of `bit_set(i)`, `bit_reset(i)`, `bit_flip(i)`
and `bit_cond(i, v)` leaves `bit_test(j)` unchanged. -/
theorem C10_single_bit_frame (w L : Nat) (hw : 0 < w) (hL : 0 < L)
    (v : Nat) (bs : List Nat) (bss : List (List Nat)) (hB : Blocks L bss)
    (i j : Nat) (value : Bool) (hne : j ≠ i)
    (hiw : i < Uint.bit_len w) (hjw : j < Uint.bit_len w)
    (hib : i < Slice.bit_len w bs) (hjb : j < Slice.bit_len w bs)
    (his : i < Simd.bit_len w L bss) (hjs : j < Simd.bit_len w L bss) :
    Uint.bit_test_usize (Uint.bit_set_usize v i) j =
      Uint.bit_test_usize v j ∧
    Uint.bit_test_usize (Uint.bit_reset_usize w v i) j =
      Uint.bit_test_usize v j ∧
    Uint.bit_test_usize (Uint.bit_flip_usize v i) j =
      Uint.bit_test_usize v j ∧
    Uint.bit_test_usize (Uint.bit_cond_usize w v i value) j =
      Uint.bit_test_usize v j ∧
    Slice.bit_test w (Slice.bit_set w bs i) j = Slice.bit_test w bs j ∧
    Slice.bit_test w (Slice.bit_reset w bs i) j = Slice.bit_test w bs j ∧
    Slice.bit_test w (Slice.bit_flip w bs i) j = Slice.bit_test w bs j ∧
    Slice.bit_test w (Slice.bit_cond w bs i value) j =
      Slice.bit_test w bs j ∧
    Simd.bit_test w L (Simd.bit_set w L bss i) j =
      Simd.bit_test w L bss j ∧
    Simd.bit_test w L (Simd.bit_reset w L bss i) j =
      Simd.bit_test w L bss j ∧
    Simd.bit_test w L (Simd.bit_flip w L bss i) j =
      Simd.bit_test w L bss j ∧
    Simd.bit_test w L (Simd.bit_cond w L bss i value) j =
      Simd.bit_test w L bss j := by
  have hne2 : ¬(i = j) := fun h => hne h.symm
  have hfb : j < Slice.bit_len w bss.flatten := by
    rw [← simd_len_eq_flatten hB]; exact hjs
  have hBset : Blocks L (Simd.bit_set w L bss i) := by
    rw [Simd.bit_set]; exact blocks_lane_set hw hL hB i _ his
  have hBreset : Blocks L (Simd.bit_reset w L bss i) := by
    rw [Simd.bit_reset]; exact blocks_lane_set hw hL hB i _ his
  have hBflip : Blocks L (Simd.bit_flip w L bss i) := by
    rw [Simd.bit_flip]; exact blocks_lane_set hw hL hB i _ his
  have hBcond : Blocks L (Simd.bit_cond w L bss i value) := by
    rw [Simd.bit_cond]; exact blocks_lane_set hw hL hB i _ his
  have hlset : Simd.bit_len w L (Simd.bit_set w L bss i) =
      Simd.bit_len w L bss := by
    rw [Simd.bit_set]; exact simd_len_set bss _ _
  have hlreset : Simd.bit_len w L (Simd.bit_reset w L bss i) =
      Simd.bit_len w L bss := by
    rw [Simd.bit_reset]; exact simd_len_set bss _ _
  have hlflip : Simd.bit_len w L (Simd.bit_flip w L bss i) =
      Simd.bit_len w L bss := by
    rw [Simd.bit_flip]; exact simd_len_set bss _ _
  have hlcond : Simd.bit_len w L (Simd.bit_cond w L bss i value) =
      Simd.bit_len w L bss := by
    rw [Simd.bit_cond]; exact simd_len_set bss _ _
  refine ⟨?_, ?_, ?_, ?_,
    slice_set_frame w bs i j hw hjb hne,
    slice_reset_frame w bs i j hw hjb hne,
    slice_flip_frame w bs i j hw hjb hne,
    slice_cond_frame w bs i j value hw hjb hne, ?_, ?_, ?_, ?_⟩
  · rw [uint_test_eq_testBit, uint_test_eq_testBit, uint_set_testBit]
    simp [hne2]
  · rw [uint_test_eq_testBit, uint_test_eq_testBit,
      @uint_reset_testBit w v i j hjw]
    simp [hne2]
  · rw [uint_test_eq_testBit, uint_test_eq_testBit, uint_flip_testBit]
    simp [hne2]
  · rw [uint_test_eq_testBit, uint_test_eq_testBit,
      @uint_cond_testBit w v i j value hjw]
    simp [hne2]
  · rw [simd_test_eq_flatten hw hL _ j hBset (by rw [hlset]; exact hjs),
      simd_set_eq_flatten hw hL bss i hB his,
      slice_set_frame w bss.flatten i j hw hfb hne,
      ← simd_test_eq_flatten hw hL bss j hB hjs]
  · rw [simd_test_eq_flatten hw hL _ j hBreset (by rw [hlreset]; exact hjs),
      simd_reset_eq_flatten hw hL bss i hB his,
      slice_reset_frame w bss.flatten i j hw hfb hne,
      ← simd_test_eq_flatten hw hL bss j hB hjs]
  · rw [simd_test_eq_flatten hw hL _ j hBflip (by rw [hlflip]; exact hjs),
      simd_flip_eq_flatten hw hL bss i hB his,
      slice_flip_frame w bss.flatten i j hw hfb hne,
      ← simd_test_eq_flatten hw hL bss j hB hjs]
  · rw [simd_test_eq_flatten hw hL _ j hBcond (by rw [hlcond]; exact hjs),
      simd_cond_eq_flatten hw hL bss i value hB his,
      slice_cond_frame w bss.flatten i j value hw hfb hne,
      ← simd_test_eq_flatten hw hL bss j hB hjs]

/-- C10 witness: the frame property at concrete containers, mutated bit 3,
observed bit 5. -/
theorem C10_single_bit_frame_witness :
    Uint.bit_test_usize (Uint.bit_set_usize 7 3) 5 =
      Uint.bit_test_usize 7 5 ∧
    Uint.bit_test_usize (Uint.bit_reset_usize 8 7 3) 5 =
      Uint.bit_test_usize 7 5 ∧
    Uint.bit_test_usize (Uint.bit_flip_usize 7 3) 5 =
      Uint.bit_test_usize 7 5 ∧
    Uint.bit_test_usize (Uint.bit_cond_usize 8 7 3 true) 5 =
      Uint.bit_test_usize 7 5 ∧
    Slice.bit_test 8 (Slice.bit_set 8 [1, 2] 3) 5 =
      Slice.bit_test 8 [1, 2] 5 ∧
    Slice.bit_test 8 (Slice.bit_reset 8 [1, 2] 3) 5 =
      Slice.bit_test 8 [1, 2] 5 ∧
    Slice.bit_test 8 (Slice.bit_flip 8 [1, 2] 3) 5 =
      Slice.bit_test 8 [1, 2] 5 ∧
    Slice.bit_test 8 (Slice.bit_cond 8 [1, 2] 3 true) 5 =
      Slice.bit_test 8 [1, 2] 5 ∧
    Simd.bit_test 8 2 (Simd.bit_set 8 2 [[1, 2]] 3) 5 =
      Simd.bit_test 8 2 [[1, 2]] 5 ∧
    Simd.bit_test 8 2 (Simd.bit_reset 8 2 [[1, 2]] 3) 5 =
      Simd.bit_test 8 2 [[1, 2]] 5 ∧
    Simd.bit_test 8 2 (Simd.bit_flip 8 2 [[1, 2]] 3) 5 =
      Simd.bit_test 8 2 [[1, 2]] 5 ∧
    Simd.bit_test 8 2 (Simd.bit_cond 8 2 [[1, 2]] 3 true) 5 =
      Simd.bit_test 8 2 [[1, 2]] 5 :=
  C10_single_bit_frame 8 2 (by decide) (by decide) 7 [1, 2] [[1, 2]]
    (by unfold Blocks; decide) 3 5 true (by decide) (by decide) (by decide)
    (by decide) (by decide) (by decide) (by decide)

/-- C5: the vector-shaped backend has semantics identical to the flat-array
backend.  For blocks of `L` lanes of width `w` and the element-wise
flattened slice (word index `= L * block + lane`): `bit_len` agrees,
`bit_test` agrees for every in-range bit, and every mutating and querying
operation commutes with the flattening; index resolution is
`block = i / bitsPerBlock`, `lane = (i / bitsPerLane) % L`,
`bitInLane = i % bitsPerLane`. -/
theorem C5_simd_refines_slice (w L : Nat) (hw : 0 < w) (hL : 0 < L)
    (a b c : List (List Nat)) (hA : Blocks L a) (hB : Blocks L b)
    (hM : Blocks L c) (value : Bool) (i : Nat)
    (hi : i < Simd.bit_len w L a) :
    Simd.bit_len w L a = Slice.bit_len w a.flatten ∧
    Simd.blk_index w L i = i / Simd.bits_per_word w L ∧
    Simd.lane_index w L i = i / Simd.bits_per_lane w L % L ∧
    i / w = L * Simd.blk_index w L i + Simd.lane_index w L i ∧
    Simd.bit_test w L a i = Slice.bit_test w a.flatten i ∧
    (Simd.bit_set w L a i).flatten = Slice.bit_set w a.flatten i ∧
    (Simd.bit_reset w L a i).flatten = Slice.bit_reset w a.flatten i ∧
    (Simd.bit_flip w L a i).flatten = Slice.bit_flip w a.flatten i ∧
    (Simd.bit_cond w L a i value).flatten =
      Slice.bit_cond w a.flatten i value ∧
    (Simd.bit_init w L a value).flatten =
      Slice.bit_init w a.flatten value ∧
    Simd.bit_all w L a = Slice.bit_all w a.flatten ∧
    Simd.bit_any L a = Slice.bit_any a.flatten ∧
    Simd.bit_eq a b = Slice.bit_eq a.flatten b.flatten ∧
    Simd.bit_disjoint L a b = Slice.bit_disjoint a.flatten b.flatten ∧
    Simd.bit_subset L a b = Slice.bit_subset a.flatten b.flatten ∧
    (Simd.bit_or L a b).map List.flatten =
      Slice.bit_or a.flatten b.flatten ∧
    (Simd.bit_and L a b).map List.flatten =
      Slice.bit_and a.flatten b.flatten ∧
    (Simd.bit_andnot w L a b).map List.flatten =
      Slice.bit_andnot w a.flatten b.flatten ∧
    (Simd.bit_xor L a b).map List.flatten =
      Slice.bit_xor a.flatten b.flatten ∧
    (Simd.bit_not w L a).flatten = Slice.bit_not w a.flatten ∧
    (Simd.bit_mask w L a b c).map List.flatten =
      Slice.bit_mask w a.flatten b.flatten c.flatten ∧
    Simd.bit_count L a = Slice.bit_count a.flatten := by
  refine ⟨simd_len_eq_flatten hA, rfl, rfl, ?_,
    simd_test_eq_flatten hw hL a i hA hi,
    simd_set_eq_flatten hw hL a i hA hi,
    simd_reset_eq_flatten hw hL a i hA hi,
    simd_flip_eq_flatten hw hL a i hA hi,
    simd_cond_eq_flatten hw hL a i value hA hi,
    simd_init_eq_flatten value a hA,
    simd_all_eq_flatten a hA,
    simd_any_eq_flatten a hA,
    simd_eq_eq_flatten hL a b hA hB,
    simd_disjoint_eq_flatten hL a b hA hB,
    simd_subset_eq_flatten hL a b hA hB,
    simd_or_eq_flatten hL a b hA hB,
    simd_and_eq_flatten hL a b hA hB,
    simd_andnot_eq_flatten hL a b hA hB,
    simd_xor_eq_flatten hL a b hA hB,
    simd_not_eq_flatten a hA,
    simd_mask_eq_flatten hL a b c hA hB hM,
    simd_count_eq_flatten a hA⟩
  rw [blk_index_eq, lane_index_eq hL]
  exact (Nat.div_add_mod (i / w) L).symm

/-- C5 witness: the refinement applied to concrete two-lane containers and
bit position 9. -/
theorem C5_simd_refines_slice_witness :
    Simd.bit_len 8 2 [[1, 2]] = Slice.bit_len 8 [[1, 2]].flatten ∧
    Simd.blk_index 8 2 9 = 9 / Simd.bits_per_word 8 2 ∧
    Simd.lane_index 8 2 9 = 9 / Simd.bits_per_lane 8 2 % 2 ∧
    9 / 8 = 2 * Simd.blk_index 8 2 9 + Simd.lane_index 8 2 9 ∧
    Simd.bit_test 8 2 [[1, 2]] 9 = Slice.bit_test 8 [[1, 2]].flatten 9 ∧
    (Simd.bit_set 8 2 [[1, 2]] 9).flatten =
      Slice.bit_set 8 [[1, 2]].flatten 9 ∧
    (Simd.bit_reset 8 2 [[1, 2]] 9).flatten =
      Slice.bit_reset 8 [[1, 2]].flatten 9 ∧
    (Simd.bit_flip 8 2 [[1, 2]] 9).flatten =
      Slice.bit_flip 8 [[1, 2]].flatten 9 ∧
    (Simd.bit_cond 8 2 [[1, 2]] 9 true).flatten =
      Slice.bit_cond 8 [[1, 2]].flatten 9 true ∧
    (Simd.bit_init 8 2 [[1, 2]] true).flatten =
      Slice.bit_init 8 [[1, 2]].flatten true ∧
    Simd.bit_all 8 2 [[1, 2]] = Slice.bit_all 8 [[1, 2]].flatten ∧
    Simd.bit_any 2 [[1, 2]] = Slice.bit_any [[1, 2]].flatten ∧
    Simd.bit_eq [[1, 2]] [[3, 4]] =
      Slice.bit_eq [[1, 2]].flatten [[3, 4]].flatten ∧
    Simd.bit_disjoint 2 [[1, 2]] [[3, 4]] =
      Slice.bit_disjoint [[1, 2]].flatten [[3, 4]].flatten ∧
    Simd.bit_subset 2 [[1, 2]] [[3, 4]] =
      Slice.bit_subset [[1, 2]].flatten [[3, 4]].flatten ∧
    (Simd.bit_or 2 [[1, 2]] [[3, 4]]).map List.flatten =
      Slice.bit_or [[1, 2]].flatten [[3, 4]].flatten ∧
    (Simd.bit_and 2 [[1, 2]] [[3, 4]]).map List.flatten =
      Slice.bit_and [[1, 2]].flatten [[3, 4]].flatten ∧
    (Simd.bit_andnot 8 2 [[1, 2]] [[3, 4]]).map List.flatten =
      Slice.bit_andnot 8 [[1, 2]].flatten [[3, 4]].flatten ∧
    (Simd.bit_xor 2 [[1, 2]] [[3, 4]]).map List.flatten =
      Slice.bit_xor [[1, 2]].flatten [[3, 4]].flatten ∧
    (Simd.bit_not 8 2 [[1, 2]]).flatten =
      Slice.bit_not 8 [[1, 2]].flatten ∧
    (Simd.bit_mask 8 2 [[1, 2]] [[3, 4]] [[5, 6]]).map List.flatten =
      Slice.bit_mask 8 [[1, 2]].flatten [[3, 4]].flatten
        [[5, 6]].flatten ∧
    Simd.bit_count 2 [[1, 2]] = Slice.bit_count [[1, 2]].flatten :=
  C5_simd_refines_slice 8 2 (by decide) (by decide) [[1, 2]] [[3, 4]]
    [[5, 6]] (by unfold Blocks; decide) (by unfold Blocks; decide)
    (by unfold Blocks; decide) true 9 (by decide)

/-- C7: on every backend, `bit_count` equals the number of indices below
`bit_len` at which `bit_test` is true: for the word backend via the
population count, for the flat-array and vector backends via per-element
population-count sums, and for every reachable state of the sparse backend
via the sum over all stored words. -/
theorem C7_count_is_cardinality (w L s : Nat) (hw : 0 < w) (hL : 0 < L)
    (hs : 0 < s) (v : Nat) (hv : v < 2 ^ w)
    (bs : List Nat) (hbs : ∀ x ∈ bs, x < 2 ^ w)
    (bss : List (List Nat)) (hB : Blocks L bss)
    (hbss : ∀ blk ∈ bss, ∀ x ∈ blk, x < 2 ^ w)
    (m : List (Nat × Nat)) (hr : Sparse.Reachable s m) :
    Uint.bit_count v =
      (List.range (Uint.bit_len w)).countP (Uint.bit_test_usize v) ∧
    Slice.bit_count bs =
      (List.range (Slice.bit_len w bs)).countP (Slice.bit_test w bs) ∧
    Simd.bit_count L bss =
      (List.range (Simd.bit_len w L bss)).countP (Simd.bit_test w L bss) ∧
    Sparse.bit_count m =
      (List.range (Sparse.bit_len m)).countP (Sparse.bit_test s m) := by
  refine ⟨?_, slice_count_eq w hw bs hbs, ?_, ?_⟩
  · rw [Uint.bit_count, Uint.bit_len, count_ones_eq_countP w v hv]
    exact (List.countP_congr fun i _ => by
      rw [uint_test_eq_testBit]).symm
  · have hflat : ∀ x ∈ bss.flatten, x < 2 ^ w := by
      intro x hx
      rcases List.mem_flatten.mp hx with ⟨blk, hblk, hxblk⟩
      exact hbss blk hblk x hxblk
    rw [simd_count_eq_flatten bss hB, slice_count_eq w hw bss.flatten hflat,
      ← simd_len_eq_flatten hB]
    exact (List.countP_congr fun i hi => by
      rw [simd_test_eq_flatten hw hL bss i hB (List.mem_range.mp hi)]).symm
  · rw [Sparse.bit_len]
    exact sparse_count_eq s hs m (reachable_inv hs hr)

/-- C7 witness: the population-count law applied to concrete containers,
with the sparse map reached by `bit_set(8)` from the empty map. -/
theorem C7_count_is_cardinality_witness :
    Uint.bit_count 36 =
      (List.range (Uint.bit_len 8)).countP (Uint.bit_test_usize 36) ∧
    Slice.bit_count [1, 2] =
      (List.range (Slice.bit_len 8 [1, 2])).countP
        (Slice.bit_test 8 [1, 2]) ∧
    Simd.bit_count 2 [[1, 2]] =
      (List.range (Simd.bit_len 8 2 [[1, 2]])).countP
        (Simd.bit_test 8 2 [[1, 2]]) ∧
    Sparse.bit_count (Sparse.bit_set 4 [] 8) =
      (List.range (Sparse.bit_len (Sparse.bit_set 4 [] 8))).countP
        (Sparse.bit_test 4 (Sparse.bit_set 4 [] 8)) :=
  C7_count_is_cardinality 8 2 4 (by decide) (by decide) (by decide) 36
    (by decide) [1, 2] (by decide) [[1, 2]] (by unfold Blocks; decide)
    (by decide) (Sparse.bit_set 4 [] 8)
    (Sparse.Reachable.set Sparse.Reachable.empty (by decide))

end BitsetCore
